import Mathlib

/-
Verification of the datagovindia metadata synchronization engine.

This file gives a shallow embedding of the parts of
src/datagovindia/metadata.py, src/datagovindia/db.py and
src/datagovindia/__main__.py that the verified claims are about, and
proves or refutes each claim against that embedding.

Modelling conventions:
- datetime values are modelled as natural numbers; a timestamp field that
  Python represents as None (absent or unparseable, see get_timestamp)
  is modelled as Option Nat with none for None.  get_timestamp never
  raises, so the raw timestamps of a record are modelled directly as
  Option Nat.
- The remote listing API is an external collaborator and is modelled as
  a function from (offset, limit) to a fetch outcome.  A fetch outcome
  records whether requests.get raised (timeout), whether the body
  failed to parse, or the list of raw records of the page.
- Python exceptions are modelled with Except: a raised exception is an
  error value that propagates, a try/except block is a match on the
  error.
- The sqlite resources table is a list of rows in insertion order; the
  FTS table is a list of projected rows.  The dict built by
  _refresh_resources_incremental from SELECT index_name, updated is
  modelled as a function from identifier to Option (Option Nat)
  (none when the key is absent, matching Python dict membership).
- Python list.sort(key=...) is a stable ascending sort by key; it is
  modelled with List.insertionSort over the key order.  The claims only
  depend on sortedness and permutation, never on the order of ties.
- The while loops of _refresh_resources_incremental are modelled with
  explicit fuel; exhausting the fuel is a distinguished error, and the
  claim theorems hypothesise runs that return normally.
-/

/-- Raw field descriptor of a raw API record: from_raw reads r["id"] of
each element of raw.get("field", []). -/
structure FieldObj where
  id : String
deriving DecidableEq, Repr

/-- One raw key-value record of a listing response, as consumed by
FetchedBatch.from_raw_records and ResourceMetadata.from_raw
(metadata.py lines 31-64).  A field holds none when the key is absent
from the dict (raw.get default applies, or a direct access raises).
Raw timestamps are already modelled as Option Nat because get_timestamp
(metadata.py lines 114-124) maps absent or unparseable values to None
and never raises. -/
structure RawRecord where
  index_name : Option String
  title : Option String
  desc : Option String
  org : Option (List String)
  org_type : Option String
  source : Option String
  sector : Option (List String)
  field : Option (List FieldObj)
  created : Option Nat
  updated : Option Nat
deriving DecidableEq, Repr

/-- Normalized record, mirroring the dataclass ResourceMetadata
(metadata.py lines 18-44). -/
structure ResourceMetadata where
  index_name : String
  title : String
  desc : String
  org : List String
  org_type : String
  source : String
  sector : List String
  field : List String
  created : Option Nat
  updated : Option Nat
deriving DecidableEq, Repr

/-- Characters stripped by Python str.strip. -/
def isPySpace (c : Char) : Bool :=
  c = ' ' || c = '\t' || c = '\n' || c = '\r'

/-- Collapse of runs of spaces to a single space: the effect of
re.sub(" +", " ", text). -/
def collapseSpaces (cs : List Char) : List Char :=
  cs.foldr (fun c acc => if c = ' ' && acc.head? = some ' ' then acc else c :: acc) []

/-- Model of clean_text (metadata.py lines 109-111): collapse runs of
spaces, then strip surrounding whitespace. -/
def clean_text (s : String) : String :=
  String.mk ((((collapseSpaces s.toList).dropWhile isPySpace).reverse.dropWhile
    isPySpace).reverse)

/-- Model of the Python set comprehension followed by list(...): the
elements without duplicates.  CPython iterates a set in hash order; the
claims never depend on the order, so first-occurrence order is used. -/
def dedup (l : List String) : List String :=
  l.foldl (fun acc x => if x ∈ acc then acc else acc ++ [x]) []

/-- Model of str.lower restricted to ASCII, as applied to org_type and
source. -/
def lowerStr (s : String) : String :=
  String.mk (s.toList.map Char.toLower)

/-- Model of ResourceMetadata.from_raw (metadata.py lines 31-44).  The
identifier is passed in: at the single call site the caller has already
read raw["index_name"], so the second dict access cannot fail. -/
def ResourceMetadata.fromRaw (nm : String) (r : RawRecord) : ResourceMetadata where
  index_name := nm
  title := clean_text (r.title.getD "")
  desc := clean_text (r.desc.getD "")
  org := dedup ((r.org.getD []).map clean_text)
  org_type := lowerStr (r.org_type.getD "")
  source := lowerStr (r.source.getD "data.gov.in")
  sector := dedup ((r.sector.getD []).map clean_text)
  field := dedup ((r.field.getD []).map FieldObj.id)
  created := r.created
  updated := r.updated

/-- Errors of the synchronization engine, each standing for a Python
exception type: timeout for an exception raised by requests.get,
keyError for the KeyError of r["index_name"] on a dict without the key,
noneCompare for the TypeError of comparing a datetime with None,
integrityError for the sqlite primary key violation of a plain INSERT,
and fuelOut marking that the fuel bound of a modelled while loop was
reached (no Python counterpart; runs of interest never return it). -/
inductive SyncErr where
  | timeout
  | keyError
  | noneCompare
  | integrityError
  | fuelOut
deriving DecidableEq, Repr

/-- Model of FetchedBatch.from_raw_records (metadata.py lines 51-64).
A record whose index_name key is absent raises KeyError at
r["index_name"]; a record whose index_name is present but not exactly
36 characters is skipped; any other record is normalized and kept in
page order. -/
def from_raw_records : List RawRecord → Except SyncErr (List ResourceMetadata)
  | [] => .ok []
  | r :: rest =>
    match r.index_name with
    | none => .error .keyError
    | some nm =>
      if nm.length = 36 then
        match from_raw_records rest with
        | .error e => .error e
        | .ok tail => .ok (ResourceMetadata.fromRaw nm r :: tail)
      else
        from_raw_records rest

/-- Body of one HTTP listing response once requests.get returned:
either resp.json()["records"] parses to a list of raw records, or the
body is malformed (resp.json raises, or the records key is absent). -/
inductive FetchBody where
  | malformed
  | records (rs : List RawRecord)
deriving DecidableEq, Repr

/-- Outcome of one page fetch at the transport boundary: requests.get
either raises (timeout or connection failure) or returns a response
with a body. -/
inductive FetchOutcome where
  | timeout
  | response (body : FetchBody)
deriving DecidableEq, Repr

/-- Model of FetchedBatch.new (metadata.py lines 66-84).  The call
resp = fetch(url) sits outside the try block, so an exception raised by
requests.get propagates.  The try block covers resp.json()["records"]
and from_raw_records, so a malformed body or a KeyError raised while
normalizing is caught and yields an empty batch. -/
def FetchedBatch.new (o : FetchOutcome) : Except SyncErr (List ResourceMetadata) :=
  match o with
  | .timeout => .error .timeout
  | .response .malformed => .ok []
  | .response (.records rs) =>
    match from_raw_records rs with
    | .error _ => .ok []
    | .ok recs => .ok recs

/-- Fixed full-sync batch size (metadata.py line 284). -/
def fullLimit : Nat := 5000

/-- Loop body state of the batch partition of _refresh_resources_full
(metadata.py lines 287-291): the loop iterates over
range(0, total, 5000) whose step was captured before the loop, while
the limit variable is mutated inside the loop for the final truncated
batch. -/
def mkBatchesAux (total : Nat) : List Nat → Nat → List (Nat × Nat)
  | [], _ => []
  | o :: rest, limit =>
    let limit2 := if o + limit > total then total % limit else limit
    (o, limit2) :: mkBatchesAux total rest limit2

/-- Model of the batch list built by _refresh_resources_full
(metadata.py lines 286-291): offsets range(0, total, 5000) with the
in-loop limit mutation. -/
def mkBatches (total : Nat) : List (Nat × Nat) :=
  mkBatchesAux total (List.range' 0 ((total + (fullLimit - 1)) / fullLimit) fullLimit)
    fullLimit

/-- Row of the resources_fts FTS5 table (db.py lines 29-41): every
column of the row store projected to text, set-valued columns
serialized with json.dumps. -/
structure FTSRow where
  index_name : String
  title : String
  desc : String
  org : String
  org_type : String
  source : String
  sector : String
  field : String
deriving DecidableEq, Repr

/-- Minimal model of json.dumps on a list of strings.  The claims only
use that the projection is a function of the list. -/
def jsonList (l : List String) : String :=
  "[" ++ String.intercalate ", " (l.map (fun s => "\"" ++ s ++ "\"")) ++ "]"

/-- Text projection of one row-store record into the FTS table: string
columns pass through, json columns are serialized
(metadata.py lines 386-392 for the incremental path, and the
INSERT ... SELECT of lines 318-328 for the full path, where the json
columns are already stored serialized). -/
def ftsProj (r : ResourceMetadata) : FTSRow where
  index_name := r.index_name
  title := r.title
  desc := r.desc
  org := jsonList r.org
  org_type := r.org_type
  source := r.source
  sector := jsonList r.sector
  field := jsonList r.field

/-- Local persisted state: the resources row store and the
resources_fts text index, each as a list of rows in physical order. -/
structure DB where
  rows : List ResourceMetadata
  fts : List FTSRow
deriving DecidableEq, Repr

/-- The empty store, as left by db.drop_all() followed by
db.create_all(). -/
def DB.empty : DB := ⟨[], []⟩

/-- Value associated with an identifier by reading the rows left to
right and letting later rows win: the semantics of the dict
comprehension of metadata.py line 336.  Returns none when no row has
the identifier, some u when the last row with the identifier has
updated timestamp u. -/
def lastUpd (rows : List ResourceMetadata) (x : String) : Option (Option Nat) :=
  rows.foldl (fun acc row => if row.index_name = x then some row.updated else acc) none

/-- In-memory map from identifier to stored updated timestamp, the ids
dict of _refresh_resources_incremental. -/
def Ids : Type := String → Option (Option Nat)

/-- Dict update ids[a] = v. -/
def idsSet (m : Ids) (a : String) (v : Option Nat) : Ids :=
  fun x => if x = a then some v else m x

/-- Dict built from SELECT index_name, updated over the row store
(metadata.py lines 335-336). -/
def idsOfRows (rows : List ResourceMetadata) : Ids :=
  fun x => lastUpd rows x

/-- Plain INSERT against the resources table (metadata.py lines
303-307): the primary key constraint on index_name (db.py line 15)
makes the insert of a duplicate identifier raise IntegrityError. -/
def insertRow (rows : List ResourceMetadata) (r : ResourceMetadata) :
    Except SyncErr (List ResourceMetadata) :=
  if (lastUpd rows r.index_name).isSome then .error .integrityError
  else .ok (rows ++ [r])

/-- Insertion of the valid records of one fetched batch, in batch
order. -/
def insertBatch (rows : List ResourceMetadata) :
    List ResourceMetadata → Except SyncErr (List ResourceMetadata)
  | [] => .ok rows
  | r :: rest =>
    match insertRow rows r with
    | .error e => .error e
    | .ok rows2 => insertBatch rows2 rest

/-- Row-insertion phase of _refresh_resources_full (metadata.py lines
296-309): the process pool maps FetchedBatch.recently_updated over the
batch list and the results are drained in batch order, each batch
inserted row by row. -/
def fullSyncRows (fetch : Nat × Nat → FetchOutcome) :
    List (Nat × Nat) → List ResourceMetadata → Except SyncErr (List ResourceMetadata)
  | [], rows => .ok rows
  | b :: rest, rows =>
    match FetchedBatch.new (fetch b) with
    | .error e => .error e
    | .ok recs =>
      match insertBatch rows recs with
      | .error e => .error e
      | .ok rows2 => fullSyncRows fetch rest rows2

/-- Model of _refresh_resources_full (metadata.py lines 276-331).  The
store is dropped and recreated, the catalog size total is reported by
the initial probe fetch (modelled as the parameter total), the batch
list partitions the catalog, every batch is fetched and inserted, and
the FTS table is rebuilt from the row store by the
INSERT ... SELECT statement. -/
def fullSync (total : Nat) (fetch : Nat × Nat → FetchOutcome) : Except SyncErr DB :=
  match fullSyncRows fetch (mkBatches total) [] with
  | .error e => .error e
  | .ok rows => .ok ⟨rows, rows.map ftsProj⟩

/-- Model of the comparison ids[r.index_name] >= r.updated of
metadata.py line 354: comparing a datetime with None raises TypeError
in either position. -/
def cmpGE : Option Nat → Option Nat → Except SyncErr Bool
  | some a, some b => .ok (b ≤ a)
  | _, _ => .error .noneCompare

/-- Inner record scan of the recently-updated loop (metadata.py lines
353-356): walk the page in order and stop at the first record whose
identifier is known locally with local updated >= fetched updated. -/
def cutU (ids : Ids) : List ResourceMetadata → Except SyncErr Bool
  | [] => .ok false
  | r :: rest =>
    match ids r.index_name with
    | none => cutU ids rest
    | some v =>
      match cmpGE v r.updated with
      | .error e => .error e
      | .ok true => .ok true
      | .ok false => cutU ids rest

/-- Inner record scan of the recently-created loop (metadata.py lines
370-373): stop at the first record whose identifier is known locally
at all. -/
def cutC (ids : Ids) : List ResourceMetadata → Except SyncErr Bool
  | [] => .ok false
  | r :: rest => if (ids r.index_name).isSome then .ok true else cutC ids rest

/-- One growing-page-size scan loop of _refresh_resources_incremental
(metadata.py lines 348-361 and 365-379): fetch the page at the current
offset and limit, stop on an empty page or on a page that contains a
cutover record (the whole page is then discarded), otherwise accumulate
the page, advance the offset by the limit and double the limit up to
5000.  Returns the accumulated delta together with the final offset and
limit, which the created scan inherits from the updated scan. -/
def scanLoop (fetch : Nat → Nat → FetchOutcome)
    (cut : Ids → List ResourceMetadata → Except SyncErr Bool) (ids : Ids) :
    Nat → Nat → Nat → List ResourceMetadata →
    Except SyncErr (List ResourceMetadata × Nat × Nat)
  | 0, _, _, _ => .error .fuelOut
  | fuel + 1, offset, limit, acc =>
    match FetchedBatch.new (fetch offset limit) with
    | .error e => .error e
    | .ok batch =>
      if batch = [] then .ok (acc, offset, limit)
      else
        match cut ids batch with
        | .error e => .error e
        | .ok true => .ok (acc, offset, limit)
        | .ok false =>
          scanLoop fetch cut ids fuel (offset + limit) (min 5000 (limit * 2))
            (acc ++ batch)

/-- Merge application of one delta record (metadata.py lines 386-412):
when the identifier is known, the row-store record and its FTS
projection are updated in place, otherwise both are inserted; in both
cases the in-memory ids map is updated and the transaction committed. -/
def applyOne (st : DB × Ids) (r : ResourceMetadata) : DB × Ids :=
  if (st.2 r.index_name).isSome then
    (⟨st.1.rows.map (fun row => if row.index_name = r.index_name then r else row),
      st.1.fts.map (fun row => if row.index_name = r.index_name then ftsProj r else row)⟩,
      idsSet st.2 r.index_name r.updated)
  else
    (⟨st.1.rows ++ [r], st.1.fts ++ [ftsProj r]⟩, idsSet st.2 r.index_name r.updated)

/-- Ascending key order of the updated-delta sort (metadata.py line
383): key r.updated or datetime.max, so a missing timestamp sorts as
maximal. -/
def tsLE : Option Nat → Option Nat → Prop
  | none, none => True
  | none, some _ => False
  | some _, none => True
  | some a, some b => a ≤ b

instance : DecidableRel tsLE := fun a b =>
  match a, b with
  | none, none => isTrue trivial
  | none, some _ => isFalse id
  | some _, none => isTrue trivial
  | some a, some b => Nat.decLe a b

/-- Sort key order on records for the updated delta. -/
def updLE (a b : ResourceMetadata) : Prop := tsLE a.updated b.updated

/-- Sort key order on records for the created delta. -/
def creLE (a b : ResourceMetadata) : Prop := tsLE a.created b.created

instance : DecidableRel updLE := fun _ _ => inferInstanceAs (Decidable (tsLE _ _))

instance : DecidableRel creLE := fun _ _ => inferInstanceAs (Decidable (tsLE _ _))

/-- Merge order of _refresh_resources_incremental (metadata.py lines
382-386): updated delta sorted ascending by updated, then created delta
sorted ascending by created. -/
def mergeOrder (upd cre : List ResourceMetadata) : List ResourceMetadata :=
  List.insertionSort updLE upd ++ List.insertionSort creLE cre

/-- Model of _refresh_resources_incremental (metadata.py lines
334-412).  Loads the ids dict from the store, scans the
recently-updated stream from offset 0 and limit 10, then scans the
recently-created stream continuing the same offset and limit cursor,
sorts the two deltas, and applies the merge in order with a commit
after each record.  Returns the final store together with the two delta
lists as accumulated by the scans. -/
def incrementalSync (fetchU fetchC : Nat → Nat → FetchOutcome) (fuel : Nat)
    (db : DB) :
    Except SyncErr (DB × List ResourceMetadata × List ResourceMetadata) :=
  let ids := idsOfRows db.rows
  match scanLoop fetchU cutU ids fuel 0 10 [] with
  | .error e => .error e
  | .ok (upd, o1, l1) =>
    match scanLoop fetchC cutC ids fuel o1 l1 [] with
    | .error e => .error e
    | .ok (cre, _, _) =>
      .ok (((mergeOrder upd cre).foldl applyOne (db, ids)).1, upd, cre)

/-- Optional search parameters of the search surface
(metadata.py lines 212-222, __main__.py lines 93-101). -/
structure SearchParams where
  title : Option String
  desc : Option String
  org : Option String
  org_type : Option String
  sector : Option String
  source : Option String
deriving DecidableEq, Repr

/-- Python truthiness of an optional string parameter: None and the
empty string are falsy; this is the test applied by each
"if title:" guard of metadata.search and by the any(...) guard of the
CLI search command. -/
def truthy : Option String → Bool
  | none => false
  | some s => !(s = "")

/-- Caller-visible failure of the CLI search command: the missing
search predicate exit, typer.Exit(code=1) at __main__.py lines
105-107, as distinguished from the transport errors of SyncErr and the
not-found ValueError of get_resource_info. -/
inductive CliErr where
  | callerInput
deriving DecidableEq, Repr

/-- Model of metadata.search (metadata.py lines 212-255).  The FTS5
MATCH predicate and the rank ordering belong to the sqlite engine, an
external collaborator, so they are abstracted as the parameters
matcher (one fts column value matched against one query string) and
rank.  A condition is added for each truthy parameter, the fts table
is filtered by the conjunction, ranked, capped at max_results and
projected to identifiers; an empty identifier list short-circuits,
otherwise the row store is filtered by the identifier list. -/
def metadataSearch (matcher : String → String → Bool) (rank : FTSRow → Nat)
    (p : SearchParams) (max_results : Nat) (db : DB) : List ResourceMetadata :=
  let conds : List (FTSRow → Bool) :=
    (if truthy p.title then [fun row => matcher row.title (p.title.getD "")] else []) ++
    (if truthy p.desc then [fun row => matcher row.desc (p.desc.getD "")] else []) ++
    (if truthy p.org then [fun row => matcher row.org (p.org.getD "")] else []) ++
    (if truthy p.org_type then [fun row => matcher row.org_type (p.org_type.getD "")] else []) ++
    (if truthy p.sector then [fun row => matcher row.sector (p.sector.getD "")] else []) ++
    (if truthy p.source then [fun row => matcher row.source (p.source.getD "")] else [])
  let cand := db.fts.filter (fun row => conds.all (fun c => c row))
  let ranked := @List.insertionSort FTSRow (fun a b => rank a ≤ rank b)
    (fun a b => Nat.decLe (rank a) (rank b)) cand
  let idList := (ranked.take max_results).map FTSRow.index_name
  if idList = [] then []
  else db.rows.filter (fun r => r.index_name ∈ idList)

/-- Model of the CLI search command (__main__.py lines 92-122): when no
supplied parameter is truthy the command exits with code 1 before the
store is even opened; otherwise it delegates to metadata.search. -/
def cliSearch (matcher : String → String → Bool) (rank : FTSRow → Nat)
    (p : SearchParams) (max_results : Nat) (db : DB) :
    Except CliErr (List ResourceMetadata) :=
  if !(truthy p.title || truthy p.desc || truthy p.org || truthy p.org_type ||
      truthy p.sector || truthy p.source) then
    .error .callerInput
  else
    .ok (metadataSearch matcher rank p max_results db)

/-- Closed form of the batch partition loop: as long as every offset
except possibly the last admits a full batch, the threaded limit stays
at fullLimit until the final iteration, so each batch gets the
pointwise limit of its own offset. -/
theorem mkBatchesAux_closed (total : Nat) :
    ∀ offsets : List Nat, (∀ o ∈ offsets.dropLast, o + fullLimit ≤ total) →
    mkBatchesAux total offsets fullLimit =
      offsets.map (fun o => (o, if o + fullLimit > total then total % fullLimit else fullLimit)) := by
  intro offsets
  induction offsets with
  | nil => intro _; rfl
  | cons o rest ih =>
    intro h
    cases rest with
    | nil => simp [mkBatchesAux]
    | cons o2 rest2 =>
      have ho : o + fullLimit ≤ total := by
        apply h
        simp [List.dropLast]
      have hno : ¬ (o + fullLimit > total) := by omega
      simp only [mkBatchesAux, List.map_cons]
      rw [if_neg hno]
      congr 1
      exact ih (fun x hx => h x (by simp [List.dropLast] at hx ⊢; tauto))

/-- Flattening the intervals of a run of full batches yields one
contiguous interval. -/
theorem flatten_full_batches (total : Nat) :
    ∀ (q a : Nat), a + 5000 * q ≤ total →
      ((List.range' a q 5000).map
        (fun o => List.range' o (if o + fullLimit > total then total % fullLimit else fullLimit))).flatten
        = List.range' a (5000 * q) := by
  intro q
  induction q with
  | zero => intro a _; simp
  | succ n ih =>
    intro a h
    have hstep : List.range' a (n + 1) 5000 = a :: List.range' (a + 5000) n 5000 :=
      List.range'_succ a (n + 1 - 1) 5000 ▸ rfl
    rw [hstep, List.map_cons, List.flatten_cons]
    have hfull : fullLimit = 5000 := rfl
    have hno : ¬ (a + fullLimit > total) := by rw [hfull]; omega
    rw [if_neg hno, hfull]
    have hrec := ih (a + 5000) (by omega)
    rw [hfull] at hrec
    have hmul : 5000 * (n + 1) = 5000 * n + 5000 := by ring
    rw [hrec, hmul]
    have happ := List.range'_append a 5000 (5000 * n) 1
    simp only [Nat.one_mul] at happ
    exact happ

/-- Partition property of the full-sync batch list: flattening the
batch intervals in order yields exactly the interval of total offsets,
every batch except the final one has size 5000, and the final batch is
truncated to total mod 5000 when total is not a multiple of 5000. -/
theorem mkBatches_partition (total : Nat) :
    ((mkBatches total).map (fun b => List.range' b.1 b.2)).flatten = List.range total ∧
    (∀ b ∈ (mkBatches total).dropLast, b.2 = fullLimit) ∧
    (∀ b, (mkBatches total).getLast? = some b →
      b.2 = if total % fullLimit = 0 then fullLimit else total % fullLimit) := by
  have hfull : fullLimit = 5000 := rfl
  by_cases h0 : total = 0
  · subst h0
    have hmk : mkBatches 0 = [] := rfl
    refine ⟨by rw [hmk]; rfl, ?_, ?_⟩
    · intro b hb; rw [hmk] at hb; simp at hb
    · intro b hb; rw [hmk] at hb; simp at hb
  · have hq : (total + (fullLimit - 1)) / fullLimit = ((total + 4999) / 5000 - 1) + 1 := by
      rw [hfull]; omega
    set qf := (total + 4999) / 5000 - 1 with hqf
    have hqf1 : 5000 * qf < total := by omega
    have hqf2 : total ≤ 5000 * qf + 5000 := by omega
    have hoffsets : List.range' 0 ((total + (fullLimit - 1)) / fullLimit) fullLimit
        = List.range' 0 qf 5000 ++ [5000 * qf] := by
      rw [hq, hfull]
      have := @List.range'_concat 5000 0 qf
      simpa using this
    have hcond : ∀ o ∈ (List.range' 0 qf 5000 ++ [5000 * qf]).dropLast,
        o + fullLimit ≤ total := by
      rw [List.dropLast_concat]
      intro o ho
      rw [List.mem_range'] at ho
      obtain ⟨i, hi, rfl⟩ := ho
      rw [hfull]
      omega
    have hmk : mkBatches total = (List.range' 0 qf 5000 ++ [5000 * qf]).map
        (fun o => (o, if o + fullLimit > total then total % fullLimit else fullLimit)) := by
      unfold mkBatches
      rw [hoffsets, mkBatchesAux_closed total _ hcond]
    refine ⟨?_, ?_, ?_⟩
    · rw [hmk, List.map_map]
      have hcomp : ((fun b : Nat × Nat => List.range' b.1 b.2) ∘
          (fun o => (o, if o + fullLimit > total then total % fullLimit else fullLimit)))
          = fun o => List.range' o (if o + fullLimit > total then total % fullLimit else fullLimit) := rfl
      rw [hcomp, List.map_append, List.flatten_append]
      rw [flatten_full_batches total qf 0 (by omega)]
      have hlast : (if 5000 * qf + fullLimit > total then total % fullLimit else fullLimit)
          = total - 5000 * qf := by
        rw [hfull]; split_ifs <;> omega
      simp only [List.map_cons, List.map_nil, List.flatten_cons, List.flatten_nil,
        List.append_nil, hlast]
      have happ := List.range'_append 0 (5000 * qf) (total - 5000 * qf) 1
      simp only [Nat.one_mul, Nat.zero_add] at happ
      rw [happ, List.range_eq_range']
      congr 1
      omega
    · rw [hmk, ← List.map_dropLast, List.dropLast_concat]
      intro b hb
      rw [List.mem_map] at hb
      obtain ⟨o, ho, rfl⟩ := hb
      rw [List.mem_range'] at ho
      obtain ⟨i, hi, rfl⟩ := ho
      have : ¬ (0 + 5000 * i + fullLimit > total) := by rw [hfull]; omega
      simp only [this, if_false]
    · rw [hmk, List.map_append]
      intro b hb
      simp only [List.map_cons, List.map_nil, List.getLast?_concat, Option.some_inj] at hb
      subst hb
      simp only [hfull]
      split_ifs <;> omega

/-- C7: for every reported catalog size total, the full-sync batch list
partitions the interval from 0 to total exactly: the batches are
pairwise disjoint, their union covers the interval (flattening the
batch intervals in order yields exactly the interval of total offsets),
every batch except the final one has size 5000, and the final batch has
size total mod 5000 when total is not a multiple of 5000 (and 5000 when
it is). -/
theorem claim_C7 (total : Nat) :
    ((mkBatches total).map (fun b => List.range' b.1 b.2)).flatten = List.range total ∧
    (∀ b ∈ (mkBatches total).dropLast, b.2 = fullLimit) ∧
    (∀ b, (mkBatches total).getLast? = some b →
      b.2 = if total % fullLimit = 0 then fullLimit else total % fullLimit) :=
  mkBatches_partition total

/-- Concrete evaluation of the C7 partition at total 12001: three
batches, the final one truncated to 12001 mod 5000. -/
theorem claim_C7_witness :
    mkBatches 12001 = [(0, 5000), (5000, 5000), (10000, 2001)] ∧
    (((mkBatches 12001).map (fun b => List.range' b.1 b.2)).flatten = List.range 12001 ∧
    (∀ b ∈ (mkBatches 12001).dropLast, b.2 = fullLimit) ∧
    (∀ b, (mkBatches 12001).getLast? = some b →
      b.2 = if 12001 % fullLimit = 0 then fullLimit else 12001 % fullLimit)) :=
  ⟨by decide, claim_C7 12001⟩

instance {ε α : Type} [DecidableEq ε] [DecidableEq α] : DecidableEq (Except ε α) :=
  fun x y =>
  match x, y with
  | .ok a, .ok b =>
    match decEq a b with
    | isTrue h => isTrue (congrArg Except.ok h)
    | isFalse h => isFalse (fun hh => h (Except.ok.inj hh))
  | .error a, .error b =>
    match decEq a b with
    | isTrue h => isTrue (congrArg Except.error h)
    | isFalse h => isFalse (fun hh => h (Except.error.inj hh))
  | .ok _, .error _ => isFalse (fun hh => Except.noConfusion hh)
  | .error _, .ok _ => isFalse (fun hh => Except.noConfusion hh)

/-- Comparing with a missing timestamp on either side raises. -/
theorem cmpGE_none (v u : Option Nat) (h : v = none ∨ u = none) :
    cmpGE v u = .error .noneCompare := by
  rcases h with rfl | rfl
  · cases u <;> rfl
  · cases v <;> rfl

/-- C3 counterexample: a timeout of the HTTP call is not recovered as
an empty record list; FetchedBatch.new propagates it as an error, since
resp = fetch(url) sits outside the try block of metadata.py lines
77-84.  This refutes the claim that every transport fault, including a
timeout, results in an empty record list with no exception escaping the
page-fetch boundary. -/
theorem claim_C3_counterexample :
    FetchedBatch.new FetchOutcome.timeout = Except.error SyncErr.timeout ∧
    FetchedBatch.new FetchOutcome.timeout ≠ Except.ok [] :=
  ⟨rfl, fun h => Except.noConfusion h⟩

/-- C3 (amended): a malformed or unparseable response body is recovered
as an empty record list and never raises past the page-fetch boundary,
but a timeout of the HTTP call itself raises, and the exception
propagates out of the page fetch into the scan loop that called it. -/
theorem claim_C3 :
    (FetchedBatch.new (FetchOutcome.response FetchBody.malformed) = Except.ok []) ∧
    (FetchedBatch.new FetchOutcome.timeout = Except.error SyncErr.timeout) ∧
    (∀ (fetch : Nat → Nat → FetchOutcome) cut ids fuel o l acc,
      fetch o l = FetchOutcome.timeout →
      scanLoop fetch cut ids (fuel + 1) o l acc = Except.error SyncErr.timeout) := by
  refine ⟨rfl, rfl, ?_⟩
  intro fetch cut ids fuel o l acc h
  simp only [scanLoop, h, FetchedBatch.new]

/-- Concrete instantiation of the C3 theorem: with a remote whose every
page times out, the scan loop surfaces the timeout error. -/
theorem claim_C3_witness :
    scanLoop (fun _ _ => FetchOutcome.timeout) cutU (idsOfRows []) 1 0 10 []
      = Except.error SyncErr.timeout :=
  claim_C3.2.2 (fun _ _ => FetchOutcome.timeout) cutU (idsOfRows []) 0 0 10 [] rfl

/-- Normalization fails with KeyError as soon as any record of the page
has no index_name key. -/
theorem from_raw_records_keyError (rs : List RawRecord)
    (h : ∃ r ∈ rs, r.index_name = none) :
    from_raw_records rs = Except.error SyncErr.keyError := by
  induction rs with
  | nil => simp at h
  | cons x rest ih =>
    obtain ⟨r, hr, hnone⟩ := h
    rcases List.mem_cons.mp hr with heq | hmem
    · subst heq
      simp only [from_raw_records, hnone]
    · cases hx : x.index_name with
      | none => simp only [from_raw_records, hx]
      | some nm =>
        have hrec := ih ⟨r, hmem, hnone⟩
        simp only [from_raw_records, hx, hrec]
        split <;> rfl

/-- Normalization of a page in which every record carries an
index_name key: exactly the records with a 36-character identifier are
kept, in page order, and each is normalized. -/
theorem from_raw_records_all_present (rs : List RawRecord)
    (h : ∀ r ∈ rs, r.index_name.isSome) :
    from_raw_records rs = Except.ok ((rs.filter
      (fun r => (r.index_name.getD "").length = 36)).map
      (fun r => ResourceMetadata.fromRaw (r.index_name.getD "") r)) := by
  induction rs with
  | nil => rfl
  | cons x rest ih =>
    have hx := h x (by simp)
    cases hxi : x.index_name with
    | none => rw [hxi] at hx; simp at hx
    | some nm =>
      have hrest := ih (fun r hr => h r (by simp [hr]))
      by_cases hlen : nm.length = 36
      · simp [from_raw_records, hxi, hrest, List.filter_cons, hlen]
      · simp [from_raw_records, hxi, hrest, List.filter_cons, hlen]

/-- A raw record with a well-formed 36-character identifier. -/
def raw36 : RawRecord :=
  ⟨some "aaaaaaaaaaaaaaaaaaaaaaaaaaaaaaaaaaaa", some "Good", none, none, none, none,
    none, none, some 1, some 2⟩

/-- A raw record whose index_name key is absent. -/
def rawNoName : RawRecord :=
  ⟨none, some "Bad", none, none, none, none, none, none, none, none⟩

/-- A raw record whose index_name is present but not 36 characters. -/
def rawShort : RawRecord :=
  ⟨some "short", some "Short", none, none, none, none, none, none, none, none⟩

/-- C4 counterexample: a page holding a well-formed record followed by
a record without an index_name key normalizes to the empty list: the
KeyError raised at r["index_name"] aborts from_raw_records and the
page-level handler of FetchedBatch.new discards the whole page, so the
well-formed record is not processed, contrary to the claim that only
the offending record is discarded.  The third conjunct shows the same
well-formed record is processed when the malformed one is absent. -/
theorem claim_C4_counterexample :
    FetchedBatch.new (FetchOutcome.response (FetchBody.records [raw36, rawNoName]))
      = Except.ok [] ∧
    (raw36.index_name.getD "").length = 36 ∧
    FetchedBatch.new (FetchOutcome.response (FetchBody.records [raw36]))
      = Except.ok [ResourceMetadata.fromRaw "aaaaaaaaaaaaaaaaaaaaaaaaaaaaaaaaaaaa" raw36] :=
  ⟨rfl, rfl, rfl⟩

/-- C4 (amended): when every record of a page carries an index_name
key, normalization discards exactly the records whose identifier is not
36 characters and still normalizes the rest in order, so a discarded
record never reaches the row store; when some record of the page has no
index_name key at all, normalization raises KeyError, and the
page-level handler catches it by discarding the entire page, so neither
the offending record nor its page-mates are processed. -/
theorem claim_C4 :
    (∀ rs : List RawRecord, (∀ r ∈ rs, r.index_name.isSome) →
      from_raw_records rs = Except.ok ((rs.filter
        (fun r => (r.index_name.getD "").length = 36)).map
        (fun r => ResourceMetadata.fromRaw (r.index_name.getD "") r))) ∧
    (∀ rs : List RawRecord, (∃ r ∈ rs, r.index_name = none) →
      FetchedBatch.new (FetchOutcome.response (FetchBody.records rs)) = Except.ok []) := by
  refine ⟨from_raw_records_all_present, ?_⟩
  intro rs h
  simp only [FetchedBatch.new, from_raw_records_keyError rs h]

/-- Concrete instantiation of the C4 theorem: a wrong-length identifier
drops only its own record, an absent identifier key drops the page. -/
theorem claim_C4_witness :
    from_raw_records [raw36, rawShort]
      = Except.ok [ResourceMetadata.fromRaw "aaaaaaaaaaaaaaaaaaaaaaaaaaaaaaaaaaaa" raw36] ∧
    FetchedBatch.new (FetchOutcome.response (FetchBody.records [raw36, rawNoName]))
      = Except.ok [] :=
  ⟨claim_C4.1 [raw36, rawShort] (by decide), claim_C4.2 [raw36, rawNoName] (by decide)⟩

/-- C8: a search request in which no search predicate is supplied fails
immediately with the caller-input fault, for every matcher, ranking,
result cap and store state; the failure is the distinguished
caller-input exit, not a transport or lookup fault, and it occurs
before the store is consulted. -/
theorem claim_C8 (matcher : String → String → Bool) (rank : FTSRow → Nat)
    (max_results : Nat) (db : DB) :
    cliSearch matcher rank ⟨none, none, none, none, none, none⟩ max_results db
      = Except.error CliErr.callerInput := rfl

/-- C9: the cutover comparison of the incremental updated-stream scan
is only defined when both timestamps are present: comparing when either
the locally stored updated value or the fetched updated value is
missing raises (first conjunct), and when such a record heads the first
fetched page the whole incremental run aborts with that error instead
of degrading gracefully (second conjunct). -/
theorem claim_C9 :
    (∀ v u : Option Nat, (v = none ∨ u = none) →
      cmpGE v u = Except.error SyncErr.noneCompare) ∧
    (∀ (fetchU fetchC : Nat → Nat → FetchOutcome) (fuel : Nat) (db : DB)
      (r : ResourceMetadata) (rest : List ResourceMetadata) (v : Option Nat),
      FetchedBatch.new (fetchU 0 10) = Except.ok (r :: rest) →
      idsOfRows db.rows r.index_name = some v →
      (v = none ∨ r.updated = none) →
      incrementalSync fetchU fetchC (fuel + 1) db = Except.error SyncErr.noneCompare) := by
  refine ⟨cmpGE_none, ?_⟩
  intro fetchU fetchC fuel db r rest v hfetch hids hvu
  have hcut : cutU (idsOfRows db.rows) (r :: rest) = Except.error SyncErr.noneCompare := by
    simp only [cutU, hids, cmpGE_none v r.updated hvu]
  have hscan : scanLoop fetchU cutU (idsOfRows db.rows) (fuel + 1) 0 10 []
      = Except.error SyncErr.noneCompare := by
    simp only [scanLoop, hfetch, hcut]
    simp
  simp only [incrementalSync, hscan]

/-- Identifier of exactly 36 characters used by concrete witnesses. -/
def nm36 : String := "bbbbbbbbbbbbbbbbbbbbbbbbbbbbbbbbbbbb"

/-- Stored row whose updated timestamp is missing. -/
def wRowNone : ResourceMetadata := ⟨nm36, "", "", [], "", "", [], [], none, none⟩

/-- Store holding only the row with the missing timestamp. -/
def wDb : DB := ⟨[wRowNone], [ftsProj wRowNone]⟩

/-- Raw remote record carrying the same identifier with a present
updated timestamp. -/
def wRaw : RawRecord :=
  ⟨some nm36, none, none, none, none, none, none, none, some 1, some 5⟩

/-- Updated-stream pages of the witness remote: one record then
nothing. -/
def wFetchU : Nat → Nat → FetchOutcome := fun o _ =>
  if o = 0 then .response (.records [wRaw]) else .response (.records [])

/-- Created-stream pages of the witness remote: always empty. -/
def wFetchC : Nat → Nat → FetchOutcome := fun _ _ => .response (.records [])

/-- Concrete instantiation of the C9 theorem: a store whose only row
has a missing updated timestamp makes the first cutover comparison of
an incremental run raise, aborting the run. -/
theorem claim_C9_witness :
    incrementalSync wFetchU wFetchC 1 wDb = Except.error SyncErr.noneCompare :=
  claim_C9.2 wFetchU wFetchC 0 wDb (ResourceMetadata.fromRaw nm36 wRaw) [] none
    rfl rfl (Or.inl rfl)

/-- Folding the last-wins update over a list from an arbitrary
accumulator either finds a value in the list or keeps the
accumulator. -/
theorem lastUpd_foldl_acc (x : String) (l : List ResourceMetadata) :
    ∀ acc : Option (Option Nat),
      l.foldl (fun acc row => if row.index_name = x then some row.updated else acc) acc
      = match lastUpd l x with
        | some v => some v
        | none => acc := by
  induction l with
  | nil => intro acc; rfl
  | cons row rest ih =>
    intro acc
    rw [List.foldl_cons, ih]
    have hcons : lastUpd (row :: rest) x = (match lastUpd rest x with
        | some v => some v
        | none => if row.index_name = x then some row.updated else none) := by
      show rest.foldl _ _ = _
      rw [ih]
    rw [hcons]
    cases lastUpd rest x with
    | some v => rfl
    | none => split_ifs <;> rfl

/-- Cons characterization of lastUpd: later rows win. -/
theorem lastUpd_cons (row : ResourceMetadata) (rest : List ResourceMetadata) (x : String) :
    lastUpd (row :: rest) x = (match lastUpd rest x with
      | some v => some v
      | none => if row.index_name = x then some row.updated else none) := by
  show rest.foldl _ _ = _
  rw [lastUpd_foldl_acc]

/-- Append characterization of lastUpd: the right list wins. -/
theorem lastUpd_append (rows l : List ResourceMetadata) (x : String) :
    lastUpd (rows ++ l) x = (match lastUpd l x with
      | some v => some v
      | none => lastUpd rows x) := by
  show (rows ++ l).foldl _ _ = _
  rw [List.foldl_append]
  exact lastUpd_foldl_acc x l _

/-- Appending one row overrides exactly its own identifier. -/
theorem lastUpd_concat (rows : List ResourceMetadata) (r : ResourceMetadata) (x : String) :
    lastUpd (rows ++ [r]) x =
      if r.index_name = x then some r.updated else lastUpd rows x := by
  rw [lastUpd_append]
  have h1 : lastUpd [r] x = if r.index_name = x then some r.updated else none := rfl
  rw [h1]
  split_ifs <;> rfl

/-- A present identifier means some row carries it. -/
theorem lastUpd_isSome_iff (rows : List ResourceMetadata) (x : String) :
    (lastUpd rows x).isSome ↔ ∃ row ∈ rows, row.index_name = x := by
  induction rows with
  | nil => simp [lastUpd]
  | cons row rest ih =>
    rw [lastUpd_cons]
    cases h : lastUpd rest x with
    | some v =>
      rw [h] at ih
      simp only [Option.isSome_some, true_iff] at ih
      simp only [Option.isSome_some, true_iff, List.mem_cons]
      obtain ⟨r2, hr2, hx2⟩ := ih
      exact ⟨r2, Or.inr hr2, hx2⟩
    | none =>
      rw [h] at ih
      simp only [Option.isSome_none, Bool.false_eq_true, false_iff] at ih
      constructor
      · intro hs
        by_cases hc : row.index_name = x
        · exact ⟨row, List.mem_cons_self row rest, hc⟩
        · rw [if_neg hc] at hs; simp at hs
      · rintro ⟨r2, hr2, hx2⟩
        rcases List.mem_cons.mp hr2 with rfl | hr2
        · rw [if_pos hx2]; rfl
        · exact absurd ⟨r2, hr2, hx2⟩ ih

/-- An absent identifier means no row carries it. -/
theorem lastUpd_eq_none_iff (rows : List ResourceMetadata) (x : String) :
    lastUpd rows x = none ↔ ∀ row ∈ rows, row.index_name ≠ x := by
  rw [← Option.not_isSome_iff_eq_none, lastUpd_isSome_iff]
  simp

/-- The value found for an identifier comes from a row carrying it. -/
theorem lastUpd_eq_some (rows : List ResourceMetadata) (x : String) (v : Option Nat)
    (h : lastUpd rows x = some v) : ∃ row ∈ rows, row.index_name = x ∧ row.updated = v := by
  induction rows with
  | nil => simp [lastUpd] at h
  | cons row rest ih =>
    rw [lastUpd_cons] at h
    cases h2 : lastUpd rest x with
    | some w =>
      rw [h2] at h
      obtain ⟨r2, hr2, hx2, hu2⟩ := ih (by rw [h2, ← h])
      exact ⟨r2, List.mem_cons_of_mem row hr2, hx2, hu2⟩
    | none =>
      rw [h2] at h
      by_cases hc : row.index_name = x
      · rw [if_pos hc] at h
        exact ⟨row, List.mem_cons_self row rest, hc, Option.some_inj.mp h⟩
      · rw [if_neg hc] at h
        exact absurd h (by simp)

/-- Batch insertion succeeds and appends when the incoming identifiers
avoid the stored identifiers and are pairwise distinct. -/
theorem insertBatch_ok (recs : List ResourceMetadata) : ∀ rows,
    (∀ r ∈ recs, lastUpd rows r.index_name = none) →
    (recs.map ResourceMetadata.index_name).Nodup →
    insertBatch rows recs = Except.ok (rows ++ recs) := by
  induction recs with
  | nil => intro rows _ _; simp [insertBatch]
  | cons r rest ih =>
    intro rows hdisj hnd
    have hr : lastUpd rows r.index_name = none := hdisj r (by simp)
    have hstep : insertRow rows r = Except.ok (rows ++ [r]) := by
      simp [insertRow, hr]
    simp only [List.map_cons, List.nodup_cons] at hnd
    obtain ⟨hnotin, hndrest⟩ := hnd
    have hdisj2 : ∀ r2 ∈ rest, lastUpd (rows ++ [r]) r2.index_name = none := by
      intro r2 hr2
      rw [lastUpd_concat]
      have hne : r.index_name ≠ r2.index_name := fun he =>
        hnotin (by rw [he]; exact List.mem_map_of_mem _ hr2)
      rw [if_neg hne]
      exact hdisj r2 (List.mem_cons_of_mem r hr2)
    have hrec := ih (rows ++ [r]) hdisj2 hndrest
    simp only [insertBatch, hstep, hrec]
    simp

/-- Batch insertion aborts with the primary key violation when the
incoming identifiers collide with the stored identifiers or with each
other. -/
theorem insertBatch_err (recs : List ResourceMetadata) : ∀ rows,
    ¬((∀ r ∈ recs, lastUpd rows r.index_name = none) ∧
      (recs.map ResourceMetadata.index_name).Nodup) →
    insertBatch rows recs = Except.error SyncErr.integrityError := by
  induction recs with
  | nil => intro rows h; exact absurd ⟨by simp, by simp⟩ h
  | cons r rest ih =>
    intro rows h
    by_cases hr : (lastUpd rows r.index_name).isSome
    · have hrs : insertRow rows r = Except.error SyncErr.integrityError := by
        simp [insertRow, hr]
      simp only [insertBatch, hrs]
    · have hrn : lastUpd rows r.index_name = none :=
        Option.not_isSome_iff_eq_none.mp hr
      have hstep : insertRow rows r = Except.ok (rows ++ [r]) := by
        simp [insertRow, hrn]
      have hnot2 : ¬((∀ r2 ∈ rest, lastUpd (rows ++ [r]) r2.index_name = none) ∧
          (rest.map ResourceMetadata.index_name).Nodup) := by
        rintro ⟨hd2, hn2⟩
        apply h
        constructor
        · intro r2 hr2
          rcases List.mem_cons.mp hr2 with rfl | hr2
          · exact hrn
          · have h3 := hd2 r2 hr2
            rw [lastUpd_concat] at h3
            by_cases hc : r.index_name = r2.index_name
            · rw [if_pos hc] at h3; exact absurd h3 (by simp)
            · rw [if_neg hc] at h3; exact h3
        · simp only [List.map_cons, List.nodup_cons]
          refine ⟨?_, hn2⟩
          intro hmem
          obtain ⟨r2, hr2, hid⟩ := List.mem_map.mp hmem
          have h3 := hd2 r2 hr2
          rw [lastUpd_concat, if_pos hid.symm] at h3
          exact absurd h3 (by simp)
      have hrec := ih (rows ++ [r]) hnot2
      simp only [insertBatch, hstep, hrec]

/-- Decomposition of the sequential insertion condition across an
append: inserting A then F from a store rows succeeds exactly when A is
insertable into rows and F is insertable into rows extended by A. -/
theorem seqCond_decomp (rows A F : List ResourceMetadata) :
    ((∀ r ∈ A ++ F, lastUpd rows r.index_name = none) ∧
      ((A ++ F).map ResourceMetadata.index_name).Nodup)
    ↔ (((∀ r ∈ A, lastUpd rows r.index_name = none) ∧
        (A.map ResourceMetadata.index_name).Nodup) ∧
       ((∀ r ∈ F, lastUpd (rows ++ A) r.index_name = none) ∧
        (F.map ResourceMetadata.index_name).Nodup)) := by
  constructor
  · rintro ⟨hall, hnd⟩
    rw [List.map_append, List.nodup_append] at hnd
    obtain ⟨hndA, hndF, hdisj⟩ := hnd
    refine ⟨⟨fun r hr => hall r (List.mem_append_left F hr), hndA⟩, ?_, hndF⟩
    intro r hr
    have hA : lastUpd A r.index_name = none := by
      rw [lastUpd_eq_none_iff]
      intro row hrow he
      exact hdisj (List.mem_map_of_mem _ hrow)
        (by rw [he]; exact List.mem_map_of_mem _ hr)
    rw [lastUpd_append, hA]
    exact hall r (List.mem_append_right A hr)
  · rintro ⟨⟨hallA, hndA⟩, hallF, hndF⟩
    constructor
    · intro r hr
      rcases List.mem_append.mp hr with h | h
      · exact hallA r h
      · have h3 := hallF r h
        rw [lastUpd_append] at h3
        cases hA : lastUpd A r.index_name with
        | some v => rw [hA] at h3; exact absurd h3 (by simp)
        | none => rw [hA] at h3; exact h3
    · rw [List.map_append, List.nodup_append]
      refine ⟨hndA, hndF, ?_⟩
      intro a haA haF
      obtain ⟨rA, hrA, hidA⟩ := List.mem_map.mp haA
      obtain ⟨rF, hrF, hidF⟩ := List.mem_map.mp haF
      have h3 := hallF rF hrF
      rw [lastUpd_append] at h3
      cases hA : lastUpd A rF.index_name with
      | some v => rw [hA] at h3; exact absurd h3 (by simp)
      | none =>
        rw [lastUpd_eq_none_iff] at hA
        exact hA rA hrA (by rw [hidA, ← hidF])

/-- The row-insertion phase of full sync succeeds and appends all valid
fetched records when every batch is delivered and the valid identifiers
collide neither with the stored rows nor with each other. -/
theorem fullSyncRows_ok (fetch : Nat × Nat → FetchOutcome)
    (recsOf : Nat × Nat → List ResourceMetadata) :
    ∀ (batches : List (Nat × Nat)) (rows : List ResourceMetadata),
    (∀ b ∈ batches, FetchedBatch.new (fetch b) = Except.ok (recsOf b)) →
    (∀ r ∈ (batches.map recsOf).flatten, lastUpd rows r.index_name = none) →
    ((batches.map recsOf).flatten.map ResourceMetadata.index_name).Nodup →
    fullSyncRows fetch batches rows = Except.ok (rows ++ (batches.map recsOf).flatten) := by
  intro batches
  induction batches with
  | nil => intro rows _ _ _; simp [fullSyncRows]
  | cons b rest ih =>
    intro rows hdel hall hnd
    have hb := hdel b (by simp)
    simp only [List.map_cons, List.flatten_cons] at hall hnd
    have hcond := (seqCond_decomp rows (recsOf b) ((rest.map recsOf).flatten)).mp ⟨hall, hnd⟩
    obtain ⟨⟨hdA, hnA⟩, hdF, hnF⟩ := hcond
    have hins := insertBatch_ok (recsOf b) rows hdA hnA
    have hrec := ih (rows ++ recsOf b)
      (fun b2 h2 => hdel b2 (List.mem_cons_of_mem b h2)) hdF hnF
    simp only [fullSyncRows, hb, hins, hrec]
    simp

/-- The row-insertion phase of full sync aborts with the primary key
violation when every batch is delivered but the valid identifiers
collide with the stored rows or with each other. -/
theorem fullSyncRows_err (fetch : Nat × Nat → FetchOutcome)
    (recsOf : Nat × Nat → List ResourceMetadata) :
    ∀ (batches : List (Nat × Nat)) (rows : List ResourceMetadata),
    (∀ b ∈ batches, FetchedBatch.new (fetch b) = Except.ok (recsOf b)) →
    ¬((∀ r ∈ (batches.map recsOf).flatten, lastUpd rows r.index_name = none) ∧
      ((batches.map recsOf).flatten.map ResourceMetadata.index_name).Nodup) →
    fullSyncRows fetch batches rows = Except.error SyncErr.integrityError := by
  intro batches
  induction batches with
  | nil =>
    intro rows _ h
    exact absurd ⟨by simp, by simp⟩ h
  | cons b rest ih =>
    intro rows hdel h
    have hb := hdel b (by simp)
    simp only [List.map_cons, List.flatten_cons] at h
    rw [seqCond_decomp rows (recsOf b) ((rest.map recsOf).flatten)] at h
    by_cases hA : (∀ r ∈ recsOf b, lastUpd rows r.index_name = none) ∧
        ((recsOf b).map ResourceMetadata.index_name).Nodup
    · have hins := insertBatch_ok (recsOf b) rows hA.1 hA.2
      have hnot2 : ¬((∀ r ∈ (rest.map recsOf).flatten,
          lastUpd (rows ++ recsOf b) r.index_name = none) ∧
          ((rest.map recsOf).flatten.map ResourceMetadata.index_name).Nodup) :=
        fun hF => h ⟨hA, hF⟩
      have hrec := ih (rows ++ recsOf b)
        (fun b2 h2 => hdel b2 (List.mem_cons_of_mem b h2)) hnot2
      simp only [fullSyncRows, hb, hins, hrec]
    · have hins := insertBatch_err (recsOf b) rows hA
      simp only [fullSyncRows, hb, hins]

/-- Sum of the batch limits equals the reported total. -/
theorem mkBatches_sum (total : Nat) :
    (((mkBatches total).map (fun b => b.2)).sum) = total := by
  have h := (mkBatches_partition total).1
  have hl := congrArg List.length h
  rw [List.length_flatten, List.length_range, List.map_map] at hl
  have hcomp : (List.length ∘ fun b : Nat × Nat => List.range' b.1 b.2)
      = fun b : Nat × Nat => b.2 := by
    funext b
    simp [List.length_range']
  rw [hcomp] at hl
  exact hl

/-- C10: full sync inserts each fetched record with a plain INSERT
against the primary-key identifier column, never an upsert.  Under any
remote delivering every batch (recsOf b is the valid record list of
batch b), if the delivered batches together contain two valid records
with the same identifier, the run aborts with the primary key
violation; consequently full sync completes only when all valid fetched
identifiers are pairwise distinct. -/
theorem claim_C10 (total : Nat) (fetch : Nat × Nat → FetchOutcome)
    (recsOf : Nat × Nat → List ResourceMetadata)
    (hdel : ∀ b ∈ mkBatches total, FetchedBatch.new (fetch b) = Except.ok (recsOf b)) :
    (¬(((mkBatches total).map recsOf).flatten.map ResourceMetadata.index_name).Nodup →
      fullSync total fetch = Except.error SyncErr.integrityError) ∧
    (∀ db, fullSync total fetch = Except.ok db →
      (((mkBatches total).map recsOf).flatten.map ResourceMetadata.index_name).Nodup) := by
  have herr : ¬(((mkBatches total).map recsOf).flatten.map ResourceMetadata.index_name).Nodup →
      fullSync total fetch = Except.error SyncErr.integrityError := by
    intro hnnd
    have h := fullSyncRows_err fetch recsOf (mkBatches total) [] hdel
      (fun hc => hnnd hc.2)
    unfold fullSync
    rw [h]
  refine ⟨herr, ?_⟩
  intro db hok
  by_contra hnnd
  rw [herr hnnd] at hok
  exact Except.noConfusion hok

/-- Two raw records sharing one 36-character identifier. -/
def wRawDup : RawRecord :=
  ⟨some nm36, some "Other", none, none, none, none, none, none, some 2, some 6⟩

/-- Remote delivering one batch holding two records with the same
identifier. -/
def wDupFetch : Nat × Nat → FetchOutcome :=
  fun _ => FetchOutcome.response (FetchBody.records [wRaw, wRawDup])

/-- Valid record lists delivered by wDupFetch. -/
def wDupRecsOf : Nat × Nat → List ResourceMetadata :=
  fun _ => [ResourceMetadata.fromRaw nm36 wRaw, ResourceMetadata.fromRaw nm36 wRawDup]

/-- Concrete instantiation of the C10 theorem: a remote reporting total
2 and delivering two valid records with the same identifier makes full
sync abort with the primary key violation. -/
theorem claim_C10_witness :
    fullSync 2 wDupFetch = Except.error SyncErr.integrityError :=
  (claim_C10 2 wDupFetch wDupRecsOf (by decide)).1 (by decide)

/-- Full sync succeeds and stores exactly the valid fetched records
when every batch is delivered and the valid identifiers are pairwise
distinct; the FTS table is rebuilt as the projection of the rows. -/
theorem fullSync_ok (total : Nat) (fetch : Nat × Nat → FetchOutcome)
    (recsOf : Nat × Nat → List ResourceMetadata)
    (hdel : ∀ b ∈ mkBatches total, FetchedBatch.new (fetch b) = Except.ok (recsOf b))
    (hnd : (((mkBatches total).map recsOf).flatten.map ResourceMetadata.index_name).Nodup) :
    fullSync total fetch = Except.ok
      ⟨((mkBatches total).map recsOf).flatten,
       (((mkBatches total).map recsOf).flatten).map ftsProj⟩ := by
  have h := fullSyncRows_ok fetch recsOf (mkBatches total) [] hdel
    (fun r _ => rfl) hnd
  unfold fullSync
  rw [h]
  simp

/-- A fetch function that reports well-formed pages whose only record
carries a malformed identifier. -/
def c6Fetch : Nat × Nat → FetchOutcome :=
  fun _ => FetchOutcome.response (FetchBody.records [rawShort])

/-- C6 counterexample: a full sync for reported total 1 during which no
transport fault occurs (every page is delivered and parses) but the
single delivered record has a malformed identifier completes with an
empty row store: the row store holds 0 resources, not the reported 1.
This refutes the claim that absence of transport faults alone
guarantees exactly total rows; record-level discards (and short pages)
also reduce the count, which the source itself anticipates with its
count-mismatch warning (metadata.py lines 311-314). -/
theorem claim_C6_counterexample :
    fullSync 1 c6Fetch = Except.ok DB.empty ∧ DB.empty.rows.length ≠ 1 :=
  ⟨rfl, by decide⟩

/-- C6 (amended): after a full sync with reported total T in which
every batch is delivered without transport fault, every delivered
record is valid, each batch holds exactly as many valid records as its
requested limit, and the identifiers are pairwise distinct, the row
store contains exactly T resources; and the text index always contains
exactly the same identifier sequence as the row store. -/
theorem claim_C6 (total : Nat) (fetch : Nat × Nat → FetchOutcome)
    (recsOf : Nat × Nat → List ResourceMetadata)
    (hdel : ∀ b ∈ mkBatches total, FetchedBatch.new (fetch b) = Except.ok (recsOf b))
    (hlen : ∀ b ∈ mkBatches total, (recsOf b).length = b.2)
    (hnd : (((mkBatches total).map recsOf).flatten.map ResourceMetadata.index_name).Nodup) :
    fullSync total fetch = Except.ok
      ⟨((mkBatches total).map recsOf).flatten,
       (((mkBatches total).map recsOf).flatten).map ftsProj⟩ ∧
    (((mkBatches total).map recsOf).flatten).length = total ∧
    ((((mkBatches total).map recsOf).flatten).map ftsProj).map FTSRow.index_name
      = (((mkBatches total).map recsOf).flatten).map ResourceMetadata.index_name := by
  refine ⟨fullSync_ok total fetch recsOf hdel hnd, ?_, ?_⟩
  · rw [List.length_flatten, List.map_map]
    have hcomp : ∀ b ∈ mkBatches total,
        (List.length ∘ recsOf) b = (fun b : Nat × Nat => b.2) b := by
      intro b hb
      exact hlen b hb
    rw [List.map_congr_left hcomp]
    exact mkBatches_sum total
  · rw [List.map_map]
    rfl

/-- Second identifier of exactly 36 characters used by concrete
witnesses. -/
def nmC : String := "cccccccccccccccccccccccccccccccccccc"

/-- Second raw record of the C6 witness remote. -/
def w6RawB : RawRecord :=
  ⟨some nmC, some "Second", none, none, none, none, none, none, some 3, some 7⟩

/-- Remote of the C6 witness: one batch of two valid records. -/
def w6Fetch : Nat × Nat → FetchOutcome :=
  fun _ => FetchOutcome.response (FetchBody.records [wRaw, w6RawB])

/-- Valid record lists delivered by w6Fetch. -/
def w6RecsOf : Nat × Nat → List ResourceMetadata :=
  fun _ => [ResourceMetadata.fromRaw nm36 wRaw, ResourceMetadata.fromRaw nmC w6RawB]

/-- Concrete instantiation of the C6 theorem at reported total 2 with
two well-formed distinct records. -/
theorem claim_C6_witness :
    fullSync 2 w6Fetch = Except.ok
      ⟨((mkBatches 2).map w6RecsOf).flatten,
       (((mkBatches 2).map w6RecsOf).flatten).map ftsProj⟩ ∧
    (((mkBatches 2).map w6RecsOf).flatten).length = 2 ∧
    ((((mkBatches 2).map w6RecsOf).flatten).map ftsProj).map FTSRow.index_name
      = (((mkBatches 2).map w6RecsOf).flatten).map ResourceMetadata.index_name :=
  claim_C6 2 w6Fetch w6RecsOf (by decide) (by decide) (by decide)

/-- Record A of the C1 counterexample: fetched strictly before the
cutover record, not itself a cutover (identifier unknown locally). -/
def c1RawA : RawRecord :=
  ⟨some nm36, some "A", none, none, none, none, none, none, some 9, some 9⟩

/-- Cutover record C of the C1 counterexample: identifier known
locally with equal updated timestamp. -/
def c1RawC : RawRecord :=
  ⟨some nmC, some "C", none, none, none, none, none, none, some 1, some 5⟩

/-- Normalized form of c1RawA. -/
def c1RecA : ResourceMetadata := ResourceMetadata.fromRaw nm36 c1RawA

/-- Normalized form of c1RawC. -/
def c1RecC : ResourceMetadata := ResourceMetadata.fromRaw nmC c1RawC

/-- Stored row matching the cutover record. -/
def c1RowC : ResourceMetadata := ⟨nmC, "", "", [], "", "", [], [], some 1, some 5⟩

/-- Store of the C1 counterexample. -/
def c1Db : DB := ⟨[c1RowC], [ftsProj c1RowC]⟩

/-- Updated-stream pages of the C1 counterexample: one page holding A
then the cutover record C, then nothing. -/
def c1FetchU : Nat → Nat → FetchOutcome := fun o _ =>
  if o = 0 then .response (.records [c1RawA, c1RawC]) else .response (.records [])

/-- Created-stream pages of the C1 counterexample: always empty. -/
def c1FetchC : Nat → Nat → FetchOutcome := fun _ _ => .response (.records [])

/-- C1 counterexample: the first fetched page holds record A strictly
before the cutover record C (third and fourth conjuncts: C alone is a
cutover, A alone is not), yet the incremental run returns an empty
updated delta: A was discarded together with the whole cutover page,
contrary to the claim that every record preceding the cutover is
accumulated. -/
theorem claim_C1_counterexample :
    incrementalSync c1FetchU c1FetchC 3 c1Db = Except.ok (c1Db, [], []) ∧
    FetchedBatch.new (c1FetchU 0 10) = Except.ok [c1RecA, c1RecC] ∧
    cutU (idsOfRows c1Db.rows) [c1RecC] = Except.ok true ∧
    cutU (idsOfRows c1Db.rows) [c1RecA] = Except.ok false :=
  ⟨rfl, rfl, rfl, rfl⟩

/-- C1 (amended): during the incremental updated-stream scan, a fetched
page that contains the cutover record contributes nothing to the
updated delta: the scan stops and discards the entire page, including
every record preceding the cutover record (first conjunct), while a
nonempty page without a cutover record is accumulated whole and the
scan continues with doubled limit (second conjunct); hence the delta
holds exactly the records of the pages fetched strictly before the
cutover page. -/
theorem claim_C1 :
    (∀ (fetch : Nat → Nat → FetchOutcome) (ids : Ids) (fuel o l : Nat)
      (acc P : List ResourceMetadata),
      FetchedBatch.new (fetch o l) = Except.ok P → P ≠ [] →
      cutU ids P = Except.ok true →
      scanLoop fetch cutU ids (fuel + 1) o l acc = Except.ok (acc, o, l)) ∧
    (∀ (fetch : Nat → Nat → FetchOutcome) (ids : Ids) (fuel o l : Nat)
      (acc P : List ResourceMetadata),
      FetchedBatch.new (fetch o l) = Except.ok P → P ≠ [] →
      cutU ids P = Except.ok false →
      scanLoop fetch cutU ids (fuel + 1) o l acc
        = scanLoop fetch cutU ids fuel (o + l) (min 5000 (l * 2)) (acc ++ P)) := by
  constructor
  · intro fetch ids fuel o l acc P hfetch hne hcut
    simp only [scanLoop, hfetch, if_neg hne, hcut]
  · intro fetch ids fuel o l acc P hfetch hne hcut
    simp only [scanLoop, hfetch, if_neg hne, hcut]

/-- Concrete instantiation of the C1 theorem: the cutover page of the
counterexample remote contributes nothing, and a cutover-free page is
accumulated whole. -/
theorem claim_C1_witness :
    scanLoop c1FetchU cutU (idsOfRows c1Db.rows) 3 0 10 [] = Except.ok ([], 0, 10) ∧
    scanLoop wFetchU cutU (idsOfRows []) 2 0 10 []
      = scanLoop wFetchU cutU (idsOfRows []) 1 (0 + 10) (min 5000 (10 * 2))
          ([] ++ [ResourceMetadata.fromRaw nm36 wRaw]) :=
  ⟨claim_C1.1 c1FetchU (idsOfRows c1Db.rows) 2 0 10 [] [c1RecA, c1RecC] rfl
      (by simp) rfl,
   claim_C1.2 wFetchU (idsOfRows []) 1 0 10 [] [ResourceMetadata.fromRaw nm36 wRaw] rfl
      (by simp) rfl⟩

/-- Totality of the missing-last timestamp order. -/
theorem tsLE_total : ∀ (a b : Option Nat), tsLE a b ∨ tsLE b a
  | none, none => Or.inl trivial
  | none, some _ => Or.inr trivial
  | some _, none => Or.inl trivial
  | some x, some y => Nat.le_total x y

/-- Transitivity of the missing-last timestamp order. -/
theorem tsLE_trans (a b c : Option Nat) (h1 : tsLE a b) (h2 : tsLE b c) : tsLE a c := by
  cases a <;> cases b <;> cases c <;> simp_all [tsLE]
  omega

instance : IsTotal ResourceMetadata updLE :=
  ⟨fun a b => tsLE_total a.updated b.updated⟩

instance : IsTrans ResourceMetadata updLE :=
  ⟨fun a b c => tsLE_trans a.updated b.updated c.updated⟩

instance : IsTotal ResourceMetadata creLE :=
  ⟨fun a b => tsLE_total a.created b.created⟩

instance : IsTrans ResourceMetadata creLE :=
  ⟨fun a b c => tsLE_trans a.created b.created c.created⟩

/-- Row associated with an identifier by reading the rows left to right
and letting later rows win: the row a SELECT by primary key observes
(unique under the primary key constraint). -/
def lastRow (rows : List ResourceMetadata) (x : String) : Option ResourceMetadata :=
  rows.foldl (fun acc row => if row.index_name = x then some row else acc) none

/-- Accumulator form of lastRow. -/
theorem lastRow_foldl_acc (x : String) (l : List ResourceMetadata) :
    ∀ acc : Option ResourceMetadata,
      l.foldl (fun acc row => if row.index_name = x then some row else acc) acc
      = match lastRow l x with
        | some v => some v
        | none => acc := by
  induction l with
  | nil => intro acc; rfl
  | cons row rest ih =>
    intro acc
    rw [List.foldl_cons, ih]
    have hcons : lastRow (row :: rest) x = (match lastRow rest x with
        | some v => some v
        | none => if row.index_name = x then some row else none) := by
      show rest.foldl _ _ = _
      rw [ih]
    rw [hcons]
    cases lastRow rest x with
    | some v => rfl
    | none => split_ifs <;> rfl

/-- Cons characterization of lastRow. -/
theorem lastRow_cons (row : ResourceMetadata) (rest : List ResourceMetadata) (x : String) :
    lastRow (row :: rest) x = (match lastRow rest x with
      | some v => some v
      | none => if row.index_name = x then some row else none) := by
  show rest.foldl _ _ = _
  rw [lastRow_foldl_acc]

/-- Appending one row overrides exactly its own identifier. -/
theorem lastRow_concat (rows : List ResourceMetadata) (r : ResourceMetadata) (x : String) :
    lastRow (rows ++ [r]) x = if r.index_name = x then some r else lastRow rows x := by
  show (rows ++ [r]).foldl _ _ = _
  rw [List.foldl_append, lastRow_foldl_acc]
  have h1 : lastRow [r] x = if r.index_name = x then some r else none := rfl
  rw [h1]
  split_ifs <;> rfl

/-- Replacing the rows of one identifier does not affect lookups of
other identifiers. -/
theorem lastRow_map_replace_other (rows : List ResourceMetadata) (r : ResourceMetadata)
    (a x : String) (hra : r.index_name = a) (hx : x ≠ a) :
    lastRow (rows.map (fun row => if row.index_name = a then r else row)) x
      = lastRow rows x := by
  induction rows with
  | nil => rfl
  | cons row rest ih =>
    simp only [List.map_cons]
    rw [lastRow_cons, lastRow_cons, ih]
    cases lastRow rest x with
    | some v => rfl
    | none =>
      by_cases hc : row.index_name = a
      · rw [if_pos hc, if_neg (by rw [hra]; exact fun h => hx h.symm),
          if_neg (by rw [hc]; exact fun h => hx h.symm)]
      · rw [if_neg hc]

/-- An identifier carried by no row resolves to no row. -/
theorem lastRow_eq_none (rows : List ResourceMetadata) (x : String)
    (h : ∀ row ∈ rows, row.index_name ≠ x) : lastRow rows x = none := by
  induction rows with
  | nil => rfl
  | cons row rest ih =>
    rw [lastRow_cons, ih (fun r hr => h r (List.mem_cons_of_mem row hr)),
      if_neg (h row (List.mem_cons_self row rest))]

/-- Replacing the rows of an identifier that is present makes the
lookup of that identifier return the replacement. -/
theorem lastRow_map_replace_self (rows : List ResourceMetadata) (r : ResourceMetadata)
    (a : String) (hra : r.index_name = a) (hex : ∃ row ∈ rows, row.index_name = a) :
    lastRow (rows.map (fun row => if row.index_name = a then r else row)) a
      = some r := by
  induction rows with
  | nil => simp at hex
  | cons row rest ih =>
    simp only [List.map_cons]
    rw [lastRow_cons]
    by_cases hrest : ∃ row2 ∈ rest, row2.index_name = a
    · rw [ih hrest]
    · have hmapid : rest.map (fun row => if row.index_name = a then r else row)
          = rest := by
        have h2 : rest.map (fun row => if row.index_name = a then r else row)
            = rest.map id :=
          List.map_congr_left (fun row hrow => if_neg (fun hc => hrest ⟨row, hrow, hc⟩))
        rw [h2, List.map_id]
      rw [hmapid]
      have hnone : lastRow rest a = none :=
        lastRow_eq_none rest a (fun r2 hr2 hc2 => hrest ⟨r2, hr2, hc2⟩)
      rw [hnone]
      obtain ⟨row2, hrow2, hc2⟩ := hex
      rcases List.mem_cons.mp hrow2 with rfl | h2
      · rw [if_pos hc2, if_pos hra]
      · exact absurd ⟨row2, h2, hc2⟩ hrest

/-- Bridge between the two last-wins lookups: the stored updated value
is the projection of the stored row. -/
theorem lastUpd_eq_lastRow (rows : List ResourceMetadata) (x : String) :
    lastUpd rows x = (lastRow rows x).map ResourceMetadata.updated := by
  induction rows with
  | nil => rfl
  | cons row rest ih =>
    rw [lastUpd_cons, lastRow_cons, ih]
    cases lastRow rest x with
    | some v => rfl
    | none => split_ifs <;> rfl

/-- Updated-value analogue of lastRow_map_replace_other. -/
theorem lastUpd_map_replace_other (rows : List ResourceMetadata) (r : ResourceMetadata)
    (a x : String) (hra : r.index_name = a) (hx : x ≠ a) :
    lastUpd (rows.map (fun row => if row.index_name = a then r else row)) x
      = lastUpd rows x := by
  rw [lastUpd_eq_lastRow, lastUpd_eq_lastRow,
    lastRow_map_replace_other rows r a x hra hx]

/-- Updated-value analogue of lastRow_map_replace_self. -/
theorem lastUpd_map_replace_self (rows : List ResourceMetadata) (r : ResourceMetadata)
    (a : String) (hra : r.index_name = a) (hex : ∃ row ∈ rows, row.index_name = a) :
    lastUpd (rows.map (fun row => if row.index_name = a then r else row)) a
      = some r.updated := by
  rw [lastUpd_eq_lastRow, lastRow_map_replace_self rows r a hra hex]
  rfl

/-- Equation of applyOne in the update branch (identifier known). -/
theorem applyOne_update (db : DB) (ids : Ids) (r : ResourceMetadata)
    (hc : (ids r.index_name).isSome = true) :
    applyOne (db, ids) r =
      (⟨db.rows.map (fun row => if row.index_name = r.index_name then r else row),
        db.fts.map (fun row => if row.index_name = r.index_name then ftsProj r else row)⟩,
        idsSet ids r.index_name r.updated) := by
  unfold applyOne
  simp [hc]

/-- Equation of applyOne in the insert branch (identifier unknown). -/
theorem applyOne_insert (db : DB) (ids : Ids) (r : ResourceMetadata)
    (hc : (ids r.index_name).isSome = false) :
    applyOne (db, ids) r =
      (⟨db.rows ++ [r], db.fts ++ [ftsProj r]⟩,
        idsSet ids r.index_name r.updated) := by
  unfold applyOne
  simp [hc]

/-- One merge application preserves the agreement between the threaded
ids map and the identifier-to-updated view of the row store. -/
theorem applyOne_inv (db : DB) (ids : Ids) (r : ResourceMetadata)
    (hinv : ∀ x, ids x = idsOfRows db.rows x) (x : String) :
    (applyOne (db, ids) r).2 x = idsOfRows (applyOne (db, ids) r).1.rows x := by
  cases hc : (ids r.index_name).isSome with
  | true =>
    rw [applyOne_update db ids r hc]
    show idsSet ids r.index_name r.updated x = lastUpd (db.rows.map _) x
    by_cases hx : x = r.index_name
    · have hex : ∃ row ∈ db.rows, row.index_name = r.index_name := by
        rw [hinv r.index_name] at hc
        exact (lastUpd_isSome_iff db.rows r.index_name).mp hc
      rw [hx, lastUpd_map_replace_self db.rows r r.index_name rfl hex]
      unfold idsSet
      rw [if_pos rfl]
    · rw [show idsSet ids r.index_name r.updated x = ids x from if_neg hx,
        lastUpd_map_replace_other db.rows r r.index_name x rfl hx]
      exact hinv x
  | false =>
    rw [applyOne_insert db ids r hc]
    show idsSet ids r.index_name r.updated x = lastUpd (db.rows ++ [r]) x
    rw [lastUpd_concat]
    unfold idsSet
    by_cases hx : x = r.index_name
    · subst hx
      rw [if_pos rfl, if_pos rfl]
    · rw [if_neg hx, if_neg (fun h => hx h.symm)]
      exact hinv x

/-- The whole merge application preserves the agreement between the
threaded ids map and the row store view. -/
theorem applyList_inv (M : List ResourceMetadata) :
    ∀ (db : DB) (ids : Ids), (∀ x, ids x = idsOfRows db.rows x) →
    ∀ x, (M.foldl applyOne (db, ids)).2 x = idsOfRows (M.foldl applyOne (db, ids)).1.rows x := by
  induction M with
  | nil => intro db ids hinv x; exact hinv x
  | cons r rest ih =>
    intro db ids hinv x
    rw [List.foldl_cons]
    rcases happ : applyOne (db, ids) r with ⟨db2, ids2⟩
    have hinv2 : ∀ y, ids2 y = idsOfRows db2.rows y := by
      intro y
      have h2 := applyOne_inv db ids r hinv y
      rw [happ] at h2
      exact h2
    exact ih db2 ids2 hinv2 x

/-- Applying records whose identifiers avoid x leaves the row stored
under x unchanged. -/
theorem applyList_lastRow_untouched (M : List ResourceMetadata) :
    ∀ (db : DB) (ids : Ids) (x : String), (∀ r ∈ M, r.index_name ≠ x) →
    lastRow ((M.foldl applyOne (db, ids)).1.rows) x = lastRow db.rows x := by
  induction M with
  | nil => intro db ids x _; rfl
  | cons r rest ih =>
    intro db ids x h
    rw [List.foldl_cons]
    have hr : r.index_name ≠ x := h r (by simp)
    cases hc : (ids r.index_name).isSome with
    | true =>
      rw [applyOne_update db ids r hc,
        ih _ _ x (fun r2 h2 => h r2 (List.mem_cons_of_mem r h2))]
      exact lastRow_map_replace_other db.rows r r.index_name x rfl
        (fun he => hr he.symm)
    | false =>
      rw [applyOne_insert db ids r hc,
        ih _ _ x (fun r2 h2 => h r2 (List.mem_cons_of_mem r h2)),
        lastRow_concat, if_neg hr]

/-- Applying one record makes the row stored under its identifier that
record, provided the threaded ids map agrees with the row store. -/
theorem applyOne_lastRow_self (db : DB) (ids : Ids) (A : ResourceMetadata)
    (hinv : ∀ x, ids x = idsOfRows db.rows x) :
    lastRow ((applyOne (db, ids) A).1.rows) A.index_name = some A := by
  cases hc : (ids A.index_name).isSome with
  | true =>
    rw [applyOne_update db ids A hc]
    have hex : ∃ row ∈ db.rows, row.index_name = A.index_name := by
      rw [hinv A.index_name] at hc
      exact (lastUpd_isSome_iff db.rows A.index_name).mp hc
    exact lastRow_map_replace_self db.rows A A.index_name rfl hex
  | false =>
    rw [applyOne_insert db ids A hc, lastRow_concat, if_pos rfl]

/-- In a list sorted by the updated-key order and without duplicates, a
record with a strictly smaller present key sits strictly earlier. -/
theorem sorted_strict_before (l : List ResourceMetadata)
    (hs : List.Sorted updLE l) (A B : ResourceMetadata)
    (t1 t2 : Nat) (hA : A ∈ l) (hB : B ∈ l)
    (hAu : A.updated = some t1) (hBu : B.updated = some t2) (hlt : t1 < t2) :
    ∃ iA iB : Fin l.length, (iA : Nat) < iB ∧ l.get iA = A ∧ l.get iB = B := by
  obtain ⟨iA, hgA⟩ := List.mem_iff_get.mp hA
  obtain ⟨iB, hgB⟩ := List.mem_iff_get.mp hB
  have hAB : A ≠ B := by
    intro he
    rw [he, hBu] at hAu
    have := Option.some_inj.mp hAu
    omega
  have hne : iA ≠ iB := fun he => hAB (by rw [← hgA, ← hgB, he])
  rcases Nat.lt_or_ge (iA : Nat) (iB : Nat) with h | h
  · exact ⟨iA, iB, h, hgA, hgB⟩
  · have hlt2 : (iB : Nat) < (iA : Nat) :=
      Nat.lt_of_le_of_ne h (fun he => hne (Fin.ext he.symm))
    have hrel := List.pairwise_iff_get.mp hs iB iA hlt2
    rw [hgA, hgB] at hrel
    unfold updLE at hrel
    rw [hAu, hBu] at hrel
    have : t2 ≤ t1 := hrel
    omega

/-- C5: the incremental merge sorts the updated delta ascending by
updated and the created delta ascending by created (missing timestamps
last), concatenates updated-then-created, and applies records strictly
in that order with a commit after each record.  For an updated delta
holding A with updated t1 and B with updated t2, t1 < t2, and pairwise
distinct identifiers, A occupies an earlier merge position i than B
(position j), and applying exactly the committed prefix through
position i (the state an interruption after A and before B leaves
behind) stores A under its identifier while the row under the
identifier of B is still its pre-merge value. -/
theorem claim_C5 (db : DB) (upd cre : List ResourceMetadata)
    (A B : ResourceMetadata) (t1 t2 : Nat)
    (hA : A ∈ upd) (hB : B ∈ upd)
    (hAu : A.updated = some t1) (hBu : B.updated = some t2) (hlt : t1 < t2)
    (hnd : ((upd ++ cre).map ResourceMetadata.index_name).Nodup) :
    ∃ i j : Nat, i < j ∧ (mergeOrder upd cre)[i]? = some A ∧
      (mergeOrder upd cre)[j]? = some B ∧
      lastRow ((((mergeOrder upd cre).take (i+1)).foldl applyOne
        (db, idsOfRows db.rows)).1.rows) A.index_name = some A ∧
      lastRow ((((mergeOrder upd cre).take (i+1)).foldl applyOne
        (db, idsOfRows db.rows)).1.rows) B.index_name = lastRow db.rows B.index_name := by
  have hperm := List.perm_insertionSort updLE upd
  rw [List.map_append] at hnd
  have hndU : (upd.map ResourceMetadata.index_name).Nodup := hnd.of_append_left
  have hinj := List.inj_on_of_nodup_map hndU
  have hndSmap : ((List.insertionSort updLE upd).map ResourceMetadata.index_name).Nodup :=
    ((hperm.map ResourceMetadata.index_name).nodup_iff).mpr hndU
  have hndS : (List.insertionSort updLE upd).Nodup := List.Nodup.of_map _ hndSmap
  have hAS : A ∈ List.insertionSort updLE upd := hperm.mem_iff.mpr hA
  have hBS : B ∈ List.insertionSort updLE upd := hperm.mem_iff.mpr hB
  have hsorted := List.sorted_insertionSort updLE upd
  obtain ⟨iA, iB, hij, hgA, hgB⟩ :=
    sorted_strict_before _ hsorted A B t1 t2 hAS hBS hAu hBu hlt
  have hABne : A ≠ B := by
    intro he
    rw [he, hBu] at hAu
    have := Option.some_inj.mp hAu
    omega
  have hBneA : A.index_name ≠ B.index_name := fun he => hABne (hinj hA hB he)
  have htake1 : (mergeOrder upd cre).take ((iA : Nat) + 1)
      = (List.insertionSort updLE upd).take ((iA : Nat) + 1) :=
    List.take_append_of_le_length (Nat.succ_le_of_lt iA.isLt)
  have htake2 : (List.insertionSort updLE upd).take ((iA : Nat) + 1)
      = (List.insertionSort updLE upd).take (iA : Nat) ++ [A] := by
    rw [List.take_succ, List.getElem?_eq_getElem iA.isLt]
    rw [show (List.insertionSort updLE upd)[(iA : Nat)] = A from by
      rw [← List.get_eq_getElem, hgA]]
    rfl
  have hAnotin : A ∉ (List.insertionSort updLE upd).take (iA : Nat) := by
    have hndTake : ((List.insertionSort updLE upd).take ((iA : Nat) + 1)).Nodup :=
      List.Nodup.sublist (List.take_sublist _ _) hndS
    rw [htake2] at hndTake
    intro hmem
    exact (List.nodup_append.mp hndTake).2.2 hmem (by simp)
  have hsubtake : (List.insertionSort updLE upd).take (iA : Nat)
      ⊆ (List.insertionSort updLE upd).take ((iA : Nat) + 1) := by
    intro a ha
    have h2 : (List.insertionSort updLE upd).take (iA : Nat)
        = ((List.insertionSort updLE upd).take ((iA : Nat) + 1)).take (iA : Nat) := by
      rw [List.take_take]
      congr 1
      omega
    rw [h2] at ha
    exact List.mem_of_mem_take ha
  have hBnotin : B ∉ (List.insertionSort updLE upd).take ((iA : Nat) + 1) := by
    have hle : (iA : Nat) + 1 ≤ (iB : Nat) := Nat.succ_le_of_lt hij
    have hlenDrop : (iB : Nat) - ((iA : Nat) + 1)
        < ((List.insertionSort updLE upd).drop ((iA : Nat) + 1)).length := by
      rw [List.length_drop]
      have := iB.isLt
      omega
    have hidx : (iA : Nat) + 1 + ((iB : Nat) - ((iA : Nat) + 1)) = (iB : Nat) := by
      omega
    have hBdrop : B ∈ (List.insertionSort updLE upd).drop ((iA : Nat) + 1) := by
      have hg : ((List.insertionSort updLE upd).drop ((iA : Nat) + 1)).get
          ⟨(iB : Nat) - ((iA : Nat) + 1), hlenDrop⟩ = B := by
        rw [List.get_eq_getElem, List.getElem_drop]
        simp only [hidx]
        rw [← List.get_eq_getElem, hgB]
      exact hg ▸ List.get_mem _ _ hlenDrop
    intro hmem
    have hsplit := hndS
    rw [← List.take_append_drop ((iA : Nat) + 1) (List.insertionSort updLE upd)] at hsplit
    exact (List.nodup_append.mp hsplit).2.2 hmem hBdrop
  have huntouched : ∀ r ∈ (List.insertionSort updLE upd).take (iA : Nat) ++ [A],
      r.index_name ≠ B.index_name := by
    intro r hr
    rcases List.mem_append.mp hr with hr | hr
    · intro he
      have hrU : r ∈ upd := hperm.mem_iff.mp (List.mem_of_mem_take hr)
      have hrB : r = B := hinj hrU hB he
      exact hBnotin (hsubtake (hrB ▸ hr))
    · have : r = A := by simpa using hr
      rw [this]
      exact hBneA
  have happly : (((mergeOrder upd cre).take ((iA : Nat) + 1)).foldl applyOne
      (db, idsOfRows db.rows))
      = applyOne (((List.insertionSort updLE upd).take (iA : Nat)).foldl applyOne
        (db, idsOfRows db.rows)) A := by
    rw [htake1, htake2, List.foldl_append]
    rfl
  refine ⟨(iA : Nat), (iB : Nat), hij, ?_, ?_, ?_, ?_⟩
  · show (List.insertionSort updLE upd ++ List.insertionSort creLE cre)[(iA : Nat)]?
      = some A
    rw [List.getElem?_append_left iA.isLt, List.getElem?_eq_getElem iA.isLt,
      ← List.get_eq_getElem, hgA]
  · show (List.insertionSort updLE upd ++ List.insertionSort creLE cre)[(iB : Nat)]?
      = some B
    rw [List.getElem?_append_left iB.isLt, List.getElem?_eq_getElem iB.isLt,
      ← List.get_eq_getElem, hgB]
  · rw [happly]
    have hinvmid : ∀ x,
        (((List.insertionSort updLE upd).take (iA : Nat)).foldl applyOne
          (db, idsOfRows db.rows)).2 x
        = idsOfRows (((List.insertionSort updLE upd).take (iA : Nat)).foldl applyOne
          (db, idsOfRows db.rows)).1.rows x :=
      applyList_inv _ db (idsOfRows db.rows) (fun _ => rfl)
    exact applyOne_lastRow_self _ _ A hinvmid
  · rw [htake1, htake2]
    exact applyList_lastRow_untouched _ db (idsOfRows db.rows) B.index_name huntouched

/-- Record A of the C5 witness, updated at 10. -/
def c5A : ResourceMetadata := ⟨nm36, "A", "", [], "", "", [], [], some 1, some 10⟩

/-- Record B of the C5 witness, updated at 20. -/
def c5B : ResourceMetadata := ⟨nmC, "B", "", [], "", "", [], [], some 2, some 20⟩

/-- Concrete instantiation of the C5 theorem: the updated delta listed
as B-then-A is applied A-then-B after the ascending sort, and the
prefix through A stores A but not B. -/
theorem claim_C5_witness :
    ∃ i j : Nat, i < j ∧ (mergeOrder [c5B, c5A] [])[i]? = some c5A ∧
      (mergeOrder [c5B, c5A] [])[j]? = some c5B ∧
      lastRow ((((mergeOrder [c5B, c5A] []).take (i+1)).foldl applyOne
        (DB.empty, idsOfRows DB.empty.rows)).1.rows) c5A.index_name = some c5A ∧
      lastRow ((((mergeOrder [c5B, c5A] []).take (i+1)).foldl applyOne
        (DB.empty, idsOfRows DB.empty.rows)).1.rows) c5B.index_name
        = lastRow DB.empty.rows c5B.index_name :=
  claim_C5 DB.empty [c5B, c5A] [] c5A c5B 10 20 (by decide) (by decide) rfl rfl
    (by decide) (by decide)


/-- A scan only ever extends its accumulator. -/
theorem scanLoop_acc_prefix (fetch : Nat → Nat → FetchOutcome)
    (cut : Ids → List ResourceMetadata → Except SyncErr Bool) (ids : Ids) :
    ∀ (fuel o l : Nat) (acc d : List ResourceMetadata) (o2 l2 : Nat),
    scanLoop fetch cut ids fuel o l acc = Except.ok (d, o2, l2) →
    ∃ tail, d = acc ++ tail := by
  intro fuel
  induction fuel with
  | zero =>
    intro o l acc d o2 l2 h
    exact absurd h (by simp [scanLoop])
  | succ n ih =>
    intro o l acc d o2 l2 h
    simp only [scanLoop] at h
    split at h
    · exact absurd h (by simp)
    · split at h
      · simp only [Except.ok.injEq, Prod.mk.injEq] at h
        exact ⟨[], by rw [← h.1]; simp⟩
      · split at h
        · exact absurd h (by simp)
        · simp only [Except.ok.injEq, Prod.mk.injEq] at h
          exact ⟨[], by rw [← h.1]; simp⟩
        · rename_i scr1 batch hb hbe scr2 hcut
          obtain ⟨tail, htail⟩ := ih _ _ _ _ _ _ h
          exact ⟨batch ++ tail, by rw [htail, List.append_assoc]⟩

/-- A scan that returns its accumulator unchanged stopped on its very
first page and left the offset and limit untouched. -/
theorem scanLoop_acc_self (fetch : Nat → Nat → FetchOutcome)
    (cut : Ids → List ResourceMetadata → Except SyncErr Bool) (ids : Ids) :
    ∀ (fuel o l : Nat) (acc : List ResourceMetadata) (o2 l2 : Nat),
    scanLoop fetch cut ids fuel o l acc = Except.ok (acc, o2, l2) →
    o2 = o ∧ l2 = l := by
  intro fuel
  cases fuel with
  | zero =>
    intro o l acc o2 l2 h
    exact absurd h (by simp [scanLoop])
  | succ n =>
    intro o l acc o2 l2 h
    simp only [scanLoop] at h
    split at h
    · exact absurd h (by simp)
    · split at h
      · simp only [Except.ok.injEq, Prod.mk.injEq] at h
        exact ⟨h.2.1.symm, h.2.2.symm⟩
      · split at h
        · exact absurd h (by simp)
        · simp only [Except.ok.injEq, Prod.mk.injEq] at h
          exact ⟨h.2.1.symm, h.2.2.symm⟩
        · rename_i scr1 batch hb hbe scr2 hcut
          obtain ⟨tail, htail⟩ := scanLoop_acc_prefix fetch cut ids _ _ _ _ _ _ _ h
          rw [List.append_assoc] at htail
          have hnil := (List.self_eq_append_right).mp htail
          exact absurd (List.append_eq_nil.mp hnil).1 hbe

/-- Every record of a scan result comes from the initial accumulator or
from some fetched page that parsed. -/
theorem scanLoop_sources (fetch : Nat → Nat → FetchOutcome)
    (cut : Ids → List ResourceMetadata → Except SyncErr Bool) (ids : Ids) :
    ∀ (fuel o l : Nat) (acc d : List ResourceMetadata) (o2 l2 : Nat),
    scanLoop fetch cut ids fuel o l acc = Except.ok (d, o2, l2) →
    ∀ r ∈ d, r ∈ acc ∨ ∃ o3 l3 P, FetchedBatch.new (fetch o3 l3) = Except.ok P ∧ r ∈ P := by
  intro fuel
  induction fuel with
  | zero =>
    intro o l acc d o2 l2 h
    exact absurd h (by simp [scanLoop])
  | succ n ih =>
    intro o l acc d o2 l2 h r hr
    simp only [scanLoop] at h
    split at h
    · exact absurd h (by simp)
    · split at h
      · simp only [Except.ok.injEq, Prod.mk.injEq] at h
        left
        rw [h.1]
        exact hr
      · split at h
        · exact absurd h (by simp)
        · simp only [Except.ok.injEq, Prod.mk.injEq] at h
          left
          rw [h.1]
          exact hr
        · rename_i scr1 batch hb hbe scr2 hcut
          rcases ih _ _ _ _ _ _ h r hr with hacc | hpage
          · rcases List.mem_append.mp hacc with h2 | h2
            · exact Or.inl h2
            · exact Or.inr ⟨o, l, batch, hb, h2⟩
          · exact Or.inr hpage

/-- Fuel does not affect a scan result that returns normally. -/
theorem scanLoop_det (fetch : Nat → Nat → FetchOutcome)
    (cut : Ids → List ResourceMetadata → Except SyncErr Bool) (ids : Ids) :
    ∀ (fuel1 fuel2 o l : Nat) (acc : List ResourceMetadata)
      (x y : List ResourceMetadata × Nat × Nat),
    scanLoop fetch cut ids fuel1 o l acc = Except.ok x →
    scanLoop fetch cut ids fuel2 o l acc = Except.ok y → x = y := by
  intro fuel1
  induction fuel1 with
  | zero =>
    intro fuel2 o l acc x y h1 _
    exact absurd h1 (by simp [scanLoop])
  | succ n ih =>
    intro fuel2 o l acc x y h1 h2
    cases fuel2 with
    | zero => exact absurd h2 (by simp [scanLoop])
    | succ m =>
      simp only [scanLoop] at h1 h2
      cases hb : FetchedBatch.new (fetch o l) with
      | error e =>
        rw [hb] at h1
        dsimp only at h1
        exact absurd h1 (by simp)
      | ok batch =>
        rw [hb] at h1 h2
        dsimp only at h1 h2
        by_cases hbe : batch = []
        · rw [if_pos hbe] at h1 h2
          simp only [Except.ok.injEq] at h1 h2
          rw [← h1, ← h2]
        · rw [if_neg hbe] at h1 h2
          cases hc : cut ids batch with
          | error e =>
            rw [hc] at h1
            dsimp only at h1
            exact absurd h1 (by simp)
          | ok b =>
            rw [hc] at h1 h2
            cases b with
            | false =>
              dsimp only at h1 h2
              exact ih m _ _ _ x y h1 h2
            | true =>
              dsimp only at h1 h2
              simp only [Except.ok.injEq] at h1 h2
              rw [← h1, ← h2]

/-- The updated-stream cutover check stays positive (or raises) on a
page it was positive on, under an ids map that either agrees with the
old one or holds the fetched updated value of the record itself. -/
theorem cutU_stable (ids1 ids2 : Ids) : ∀ P : List ResourceMetadata,
    cutU ids1 P = Except.ok true →
    (∀ r ∈ P, ids2 r.index_name = ids1 r.index_name ∨
      ids2 r.index_name = some r.updated) →
    cutU ids2 P ≠ Except.ok false := by
  intro P
  induction P with
  | nil =>
    intro h _
    exact absurd h (by simp [cutU])
  | cons r rest ih =>
    intro h hdisj
    have hd := hdisj r (by simp)
    simp only [cutU] at h ⊢
    cases h1 : ids1 r.index_name with
    | none =>
      rw [h1] at h
      dsimp only at h
      rcases hd with hd | hd
      · rw [h1] at hd
        rw [hd]
        dsimp only
        exact ih h (fun r2 h2 => hdisj r2 (List.mem_cons_of_mem r h2))
      · rw [hd]
        dsimp only
        cases hu : r.updated with
        | some u => simp [cmpGE]
        | none => simp [cmpGE]
    | some v =>
      rw [h1] at h
      dsimp only at h
      cases hcmp : cmpGE v r.updated with
      | error e =>
        rw [hcmp] at h
        dsimp only at h
        exact absurd h (by simp)
      | ok b =>
        rw [hcmp] at h
        cases b with
        | true =>
          rcases hd with hd | hd
          · rw [h1] at hd
            rw [hd]
            dsimp only
            rw [hcmp]
            simp
          · rw [hd]
            dsimp only
            cases hu : r.updated with
            | some u => simp [cmpGE]
            | none => simp [cmpGE]
        | false =>
          dsimp only at h
          rcases hd with hd | hd
          · rw [h1] at hd
            rw [hd]
            dsimp only
            rw [hcmp]
            dsimp only
            exact ih h (fun r2 h2 => hdisj r2 (List.mem_cons_of_mem r h2))
          · rw [hd]
            dsimp only
            cases hu : r.updated with
            | some u => simp [cmpGE]
            | none => simp [cmpGE]

/-- A page whose head is known with exactly its fetched updated value
never lets the updated-stream scan continue. -/
theorem cutU_head_self (ids : Ids) (r : ResourceMetadata)
    (rest : List ResourceMetadata) (h : ids r.index_name = some r.updated) :
    cutU ids (r :: rest) ≠ Except.ok false := by
  simp only [cutU]
  rw [h]
  dsimp only
  cases hu : r.updated with
  | some u => simp [cmpGE]
  | none => simp [cmpGE]

/-- The created-stream cutover check is positive exactly when some
record of the page has a locally known identifier. -/
theorem cutC_eq_true_iff (ids : Ids) :
    ∀ Q : List ResourceMetadata,
    (cutC ids Q = Except.ok true ↔ ∃ r ∈ Q, (ids r.index_name).isSome) := by
  intro Q
  induction Q with
  | nil => simp [cutC]
  | cons r rest ih =>
    simp only [cutC]
    by_cases hc : (ids r.index_name).isSome
    · simp [hc]
    · simp [hc, ih]

/-- The created-stream cutover check never raises. -/
theorem cutC_total (ids : Ids) :
    ∀ Q : List ResourceMetadata,
    cutC ids Q = Except.ok true ∨ cutC ids Q = Except.ok false := by
  intro Q
  induction Q with
  | nil => right; rfl
  | cons r rest ih =>
    simp only [cutC]
    by_cases hc : (ids r.index_name).isSome
    · left; simp [hc]
    · simp only [hc]
      simpa using ih

/-- Membership in the merge order is membership in one of the two
deltas. -/
theorem mem_mergeOrder (r : ResourceMetadata) (upd cre : List ResourceMetadata) :
    r ∈ mergeOrder upd cre ↔ r ∈ upd ∨ r ∈ cre := by
  unfold mergeOrder
  rw [List.mem_append, (List.perm_insertionSort updLE upd).mem_iff,
    (List.perm_insertionSort creLE cre).mem_iff]

/-- Applying one record sets its identifier to its updated value in the
row store view, provided the threaded ids map agrees with the store. -/
theorem applyOne_ids_self (db : DB) (ids : Ids) (r : ResourceMetadata)
    (hinv : ∀ x, ids x = idsOfRows db.rows x) :
    idsOfRows ((applyOne (db, ids) r).1.rows) r.index_name = some r.updated := by
  show lastUpd _ _ = _
  rw [lastUpd_eq_lastRow, applyOne_lastRow_self db ids r hinv]
  rfl

/-- Applying records whose identifiers avoid x leaves the stored
updated value of x unchanged. -/
theorem applyList_ids_untouched (M : List ResourceMetadata) (db : DB) (ids : Ids)
    (x : String) (h : ∀ r ∈ M, r.index_name ≠ x) :
    idsOfRows ((M.foldl applyOne (db, ids)).1.rows) x = idsOfRows db.rows x := by
  show lastUpd _ _ = lastUpd _ _
  rw [lastUpd_eq_lastRow, lastUpd_eq_lastRow,
    applyList_lastRow_untouched M db ids x h]

/-- One merge application either leaves the stored updated value of an
identifier unchanged or sets it to the updated value of the applied
record. -/
theorem applyOne_ids_disj (db : DB) (ids : Ids) (r : ResourceMetadata) (x : String) :
    idsOfRows ((applyOne (db, ids) r).1.rows) x = idsOfRows db.rows x ∨
    (x = r.index_name ∧
      idsOfRows ((applyOne (db, ids) r).1.rows) x = some r.updated) := by
  cases hc : (ids r.index_name).isSome with
  | true =>
    rw [applyOne_update db ids r hc]
    by_cases hx : x = r.index_name
    · by_cases hex : ∃ row ∈ db.rows, row.index_name = r.index_name
      · right
        refine ⟨hx, ?_⟩
        show lastUpd _ _ = _
        rw [hx]
        exact lastUpd_map_replace_self db.rows r r.index_name rfl hex
      · left
        show lastUpd (db.rows.map _) x = lastUpd db.rows x
        have hmapid : db.rows.map
            (fun row => if row.index_name = r.index_name then r else row) = db.rows := by
          have h2 : db.rows.map
              (fun row => if row.index_name = r.index_name then r else row)
              = db.rows.map id :=
            List.map_congr_left
              (fun row hrow => if_neg (fun hceq => hex ⟨row, hrow, hceq⟩))
          rw [h2, List.map_id]
        rw [hmapid]
    · left
      show lastUpd (db.rows.map _) x = lastUpd db.rows x
      exact lastUpd_map_replace_other db.rows r r.index_name x rfl hx
  | false =>
    rw [applyOne_insert db ids r hc]
    by_cases hx : x = r.index_name
    · right
      refine ⟨hx, ?_⟩
      show lastUpd (db.rows ++ [r]) x = some r.updated
      rw [lastUpd_concat, if_pos hx.symm]
    · left
      show lastUpd (db.rows ++ [r]) x = lastUpd db.rows x
      rw [lastUpd_concat, if_neg (fun he => hx he.symm)]

/-- After the merge application, the stored updated value of an
identifier is either its pre-merge value or the fetched updated value
of some applied record with that identifier. -/
theorem applyList_ids_disj (M : List ResourceMetadata) :
    ∀ (db : DB) (ids : Ids) (x : String),
    idsOfRows ((M.foldl applyOne (db, ids)).1.rows) x = idsOfRows db.rows x ∨
    ∃ r ∈ M, r.index_name = x ∧
      idsOfRows ((M.foldl applyOne (db, ids)).1.rows) x = some r.updated := by
  induction M with
  | nil =>
    intro db ids x
    left
    rfl
  | cons r rest ih =>
    intro db ids x
    rw [List.foldl_cons]
    rcases happ : applyOne (db, ids) r with ⟨db2, ids2⟩
    rcases ih db2 ids2 x with h | ⟨r2, hr2, hid2, hval⟩
    · have hstep := applyOne_ids_disj db ids r x
      rw [happ] at hstep
      rcases hstep with h2 | ⟨hx, h2⟩
      · left
        rw [h, h2]
      · right
        exact ⟨r, by simp, hx.symm, by rw [h, h2]⟩
    · right
      exact ⟨r2, List.mem_cons_of_mem r hr2, hid2, hval⟩

/-- After the merge application, a record of the merge list whose
identifier carries one consistent updated value across the list leaves
exactly that value stored under its identifier. -/
theorem applyList_ids_mem (M : List ResourceMetadata) :
    ∀ (db : DB) (ids : Ids),
    (∀ x, ids x = idsOfRows db.rows x) →
    ∀ r, r ∈ M → (∀ r2 ∈ M, r2.index_name = r.index_name → r2.updated = r.updated) →
    idsOfRows ((M.foldl applyOne (db, ids)).1.rows) r.index_name = some r.updated := by
  induction M with
  | nil =>
    intro db ids _ r hr
    simp at hr
  | cons m rest ih =>
    intro db ids hinv r hr hcons
    rw [List.foldl_cons]
    rcases happ : applyOne (db, ids) m with ⟨db2, ids2⟩
    have hinv2 : ∀ y, ids2 y = idsOfRows db2.rows y := by
      intro y
      have h2 := applyOne_inv db ids m hinv y
      rw [happ] at h2
      exact h2
    by_cases hrest : ∃ r2 ∈ rest, r2.index_name = r.index_name
    · obtain ⟨r2, hr2mem, hr2id⟩ := hrest
      have hconsR : ∀ r3 ∈ rest, r3.index_name = r2.index_name →
          r3.updated = r2.updated := by
        intro r3 hr3 hid3
        have e3 := hcons r3 (List.mem_cons_of_mem m hr3) (by rw [hid3, hr2id])
        have e2 := hcons r2 (List.mem_cons_of_mem m hr2mem) hr2id
        rw [e3, e2]
      have h2 := ih db2 ids2 hinv2 r2 hr2mem hconsR
      rw [hr2id] at h2
      rw [h2, hcons r2 (List.mem_cons_of_mem m hr2mem) hr2id]
    · have hrm : r = m := by
        rcases List.mem_cons.mp hr with h | h
        · exact h
        · exact absurd ⟨r, h, rfl⟩ hrest
      subst hrm
      have hself := applyOne_ids_self db ids r hinv
      rw [happ] at hself
      have huntouched := applyList_ids_untouched rest db2 ids2 r.index_name
        (fun r3 h3 he => hrest ⟨r3, h3, he⟩)
      rw [huntouched, hself]

/-- Decomposition of a normally returning incremental run into its
updated scan, created scan (inheriting the cursor) and merge. -/
theorem incrementalSync_ok_elim (fetchU fetchC : Nat → Nat → FetchOutcome)
    (fuel : Nat) (db : DB) (out : DB × List ResourceMetadata × List ResourceMetadata)
    (h : incrementalSync fetchU fetchC fuel db = Except.ok out) :
    ∃ o1 l1 oc lc,
      scanLoop fetchU cutU (idsOfRows db.rows) fuel 0 10 []
        = Except.ok (out.2.1, o1, l1) ∧
      scanLoop fetchC cutC (idsOfRows db.rows) fuel o1 l1 []
        = Except.ok (out.2.2, oc, lc) ∧
      out.1 = ((mergeOrder out.2.1 out.2.2).foldl applyOne
        (db, idsOfRows db.rows)).1 := by
  simp only [incrementalSync] at h
  cases hu : scanLoop fetchU cutU (idsOfRows db.rows) fuel 0 10 [] with
  | error e =>
    rw [hu] at h
    dsimp only at h
    exact absurd h (by simp)
  | ok res =>
    obtain ⟨u1, o1, l1⟩ := res
    rw [hu] at h
    dsimp only at h
    cases hcres : scanLoop fetchC cutC (idsOfRows db.rows) fuel o1 l1 [] with
    | error e =>
      rw [hcres] at h
      dsimp only at h
      exact absurd h (by simp)
    | ok res2 =>
      obtain ⟨c1, oc, lc⟩ := res2
      rw [hcres] at h
      dsimp only at h
      simp only [Except.ok.injEq] at h
      subst h
      refine ⟨o1, l1, oc, lc, rfl, ?_, rfl⟩
      exact hcres

/-- Consistency of the remote between the two runs: a record fetched
anywhere in either stream is determined by its identifier.  This is the
formal content of the phrase "no change to the remote catalog between
the two runs": both streams are views of one fixed catalog keyed by
index_name. -/
def RemoteConsistent (fetchU fetchC : Nat → Nat → FetchOutcome) : Prop :=
  ∀ (o1 l1 o2 l2 : Nat) (P1 P2 : List ResourceMetadata)
    (r1 r2 : ResourceMetadata),
    (FetchedBatch.new (fetchU o1 l1) = Except.ok P1 ∨
     FetchedBatch.new (fetchC o1 l1) = Except.ok P1) →
    (FetchedBatch.new (fetchU o2 l2) = Except.ok P2 ∨
     FetchedBatch.new (fetchC o2 l2) = Except.ok P2) →
    r1 ∈ P1 → r2 ∈ P2 → r1.index_name = r2.index_name → r1 = r2

/-- C2 (amended): running incremental sync twice against a remote that
does not change between the runs (pages are fixed functions of offset
and limit, and every fetched record is determined by its identifier),
with both runs returning normally, the second run discovers an empty
updated delta; and whenever the first run had an empty updated delta as
well, the second run also discovers an empty created delta and leaves
the store exactly as the first run left it. -/
theorem claim_C2 (fetchU fetchC : Nat → Nat → FetchOutcome)
    (hcons : RemoteConsistent fetchU fetchC)
    (fuel1 fuel2 : Nat) (db0 db1 db2 : DB)
    (upd1 cre1 upd2 cre2 : List ResourceMetadata)
    (h1 : incrementalSync fetchU fetchC fuel1 db0 = Except.ok (db1, upd1, cre1))
    (h2 : incrementalSync fetchU fetchC fuel2 db1 = Except.ok (db2, upd2, cre2)) :
    upd2 = [] ∧ (upd1 = [] → cre2 = [] ∧ db2 = db1) := by
  obtain ⟨o1, l1, oc1, lc1, hu1, hc1, hdb1⟩ :=
    incrementalSync_ok_elim fetchU fetchC fuel1 db0 (db1, upd1, cre1) h1
  obtain ⟨o2, l2, oc2, lc2, hu2, hc2, hdb2⟩ :=
    incrementalSync_ok_elim fetchU fetchC fuel2 db1 (db2, upd2, cre2) h2
  dsimp only at hu1 hc1 hdb1 hu2 hc2 hdb2
  have hsrc : ∀ r2 ∈ mergeOrder upd1 cre1, ∃ o3 l3 P,
      (FetchedBatch.new (fetchU o3 l3) = Except.ok P ∨
       FetchedBatch.new (fetchC o3 l3) = Except.ok P) ∧ r2 ∈ P := by
    intro r2 hr2
    rcases (mem_mergeOrder r2 upd1 cre1).mp hr2 with hin | hin
    · rcases scanLoop_sources fetchU cutU (idsOfRows db0.rows) fuel1 0 10 []
        upd1 o1 l1 hu1 r2 hin with hacc | ⟨o3, l3, P, hP, hrP⟩
      · simp at hacc
      · exact ⟨o3, l3, P, Or.inl hP, hrP⟩
    · rcases scanLoop_sources fetchC cutC (idsOfRows db0.rows) fuel1 o1 l1 []
        cre1 oc1 lc1 hc1 r2 hin with hacc | ⟨o3, l3, P, hP, hrP⟩
      · simp at hacc
      · exact ⟨o3, l3, P, Or.inr hP, hrP⟩
  have hM1cons : ∀ (P : List ResourceMetadata),
      (FetchedBatch.new (fetchU 0 10) = Except.ok P ∨
       FetchedBatch.new (fetchC 0 10) = Except.ok P) →
      ∀ r ∈ P, ∀ r2 ∈ mergeOrder upd1 cre1,
        r2.index_name = r.index_name → r2 = r := by
    intro P hP r hrP r2 hr2 hid
    obtain ⟨o3, l3, P2, hP2, hrP2⟩ := hsrc r2 hr2
    exact hcons o3 l3 0 10 P2 P r2 r hP2 hP hrP2 hrP hid
  have hupd2 : upd2 = [] := by
    cases fuel2 with
    | zero => exact absurd hu2 (by simp [scanLoop])
    | succ m =>
      have hu2s := hu2
      simp only [scanLoop] at hu2s
      cases hb : FetchedBatch.new (fetchU 0 10) with
      | error e =>
        rw [hb] at hu2s
        dsimp only at hu2s
        exact absurd hu2s (by simp)
      | ok P =>
        rw [hb] at hu2s
        dsimp only at hu2s
        by_cases hPe : P = []
        · rw [if_pos hPe] at hu2s
          simp only [Except.ok.injEq, Prod.mk.injEq] at hu2s
          exact hu2s.1.symm
        · rw [if_neg hPe] at hu2s
          have hnotfalse : cutU (idsOfRows db1.rows) P ≠ Except.ok false := by
            cases fuel1 with
            | zero => exact absurd hu1 (by simp [scanLoop])
            | succ n =>
              have hu1s := hu1
              simp only [scanLoop] at hu1s
              rw [hb] at hu1s
              dsimp only at hu1s
              rw [if_neg hPe] at hu1s
              cases hc : cutU (idsOfRows db0.rows) P with
              | error e =>
                rw [hc] at hu1s
                dsimp only at hu1s
                exact absurd hu1s (by simp)
              | ok b =>
                rw [hc] at hu1s
                cases b with
                | true =>
                  apply cutU_stable (idsOfRows db0.rows) (idsOfRows db1.rows) P hc
                  intro r hrP
                  have hdisj := applyList_ids_disj (mergeOrder upd1 cre1) db0
                    (idsOfRows db0.rows) r.index_name
                  rw [← hdb1] at hdisj
                  rcases hdisj with h | ⟨r2, hr2, hid2, hval⟩
                  · left
                    exact h
                  · right
                    rw [hval, hM1cons P (Or.inl hb) r hrP r2 hr2 hid2]
                | false =>
                  dsimp only at hu1s
                  obtain ⟨tail, htail⟩ := scanLoop_acc_prefix fetchU cutU
                    (idsOfRows db0.rows) n _ _ _ _ _ _ hu1s
                  cases P with
                  | nil => exact absurd rfl hPe
                  | cons rh rt =>
                    apply cutU_head_self
                    have hrhu : rh ∈ upd1 := by
                      rw [htail]
                      simp
                    have hrhM : rh ∈ mergeOrder upd1 cre1 :=
                      (mem_mergeOrder _ _ _).mpr (Or.inl hrhu)
                    have hconsInst : ∀ r2 ∈ mergeOrder upd1 cre1,
                        r2.index_name = rh.index_name → r2.updated = rh.updated := by
                      intro r2 hr2 hid2
                      rw [hM1cons (rh :: rt) (Or.inl hb) rh (by simp) r2 hr2 hid2]
                    have hmem := applyList_ids_mem (mergeOrder upd1 cre1) db0
                      (idsOfRows db0.rows) (fun _ => rfl) rh hrhM hconsInst
                    rw [← hdb1] at hmem
                    exact hmem
          cases hc2v : cutU (idsOfRows db1.rows) P with
          | error e =>
            rw [hc2v] at hu2s
            dsimp only at hu2s
            exact absurd hu2s (by simp)
          | ok b =>
            rw [hc2v] at hu2s
            cases b with
            | true =>
              dsimp only at hu2s
              simp only [Except.ok.injEq, Prod.mk.injEq] at hu2s
              exact hu2s.1.symm
            | false => exact absurd hc2v hnotfalse
  refine ⟨hupd2, ?_⟩
  intro hupd1
  have ho1 : o1 = 0 ∧ l1 = 10 := by
    rw [hupd1] at hu1
    exact scanLoop_acc_self fetchU cutU (idsOfRows db0.rows) fuel1 0 10 [] o1 l1 hu1
  have ho2 : o2 = 0 ∧ l2 = 10 := by
    rw [hupd2] at hu2
    exact scanLoop_acc_self fetchU cutU (idsOfRows db1.rows) fuel2 0 10 [] o2 l2 hu2
  rw [ho1.1, ho1.2] at hc1
  rw [ho2.1, ho2.2] at hc2
  have hcre2 : cre2 = [] := by
    cases fuel2 with
    | zero => exact absurd hc2 (by simp [scanLoop])
    | succ m =>
      have hc2s := hc2
      simp only [scanLoop] at hc2s
      cases hbQ : FetchedBatch.new (fetchC 0 10) with
      | error e =>
        rw [hbQ] at hc2s
        dsimp only at hc2s
        exact absurd hc2s (by simp)
      | ok Q =>
        rw [hbQ] at hc2s
        dsimp only at hc2s
        by_cases hQe : Q = []
        · rw [if_pos hQe] at hc2s
          simp only [Except.ok.injEq, Prod.mk.injEq] at hc2s
          exact hc2s.1.symm
        · rw [if_neg hQe] at hc2s
          have htrue : cutC (idsOfRows db1.rows) Q = Except.ok true := by
            cases fuel1 with
            | zero => exact absurd hc1 (by simp [scanLoop])
            | succ n =>
              have hc1s := hc1
              simp only [scanLoop] at hc1s
              rw [hbQ] at hc1s
              dsimp only at hc1s
              rw [if_neg hQe] at hc1s
              rcases cutC_total (idsOfRows db0.rows) Q with ht | hf
              · rw [cutC_eq_true_iff]
                obtain ⟨r, hrQ, hsome⟩ :=
                  (cutC_eq_true_iff (idsOfRows db0.rows) Q).mp ht
                refine ⟨r, hrQ, ?_⟩
                have hdisj := applyList_ids_disj (mergeOrder upd1 cre1) db0
                  (idsOfRows db0.rows) r.index_name
                rw [← hdb1] at hdisj
                rcases hdisj with h | ⟨r2, _, _, hval⟩
                · rw [h]
                  exact hsome
                · rw [hval]
                  simp
              · rw [hf] at hc1s
                dsimp only at hc1s
                obtain ⟨tail, htail⟩ := scanLoop_acc_prefix fetchC cutC
                  (idsOfRows db0.rows) n _ _ _ _ _ _ hc1s
                cases Q with
                | nil => exact absurd rfl hQe
                | cons rh rt =>
                  rw [cutC_eq_true_iff]
                  refine ⟨rh, by simp, ?_⟩
                  have hrhc : rh ∈ cre1 := by
                    rw [htail]
                    simp
                  have hrhM : rh ∈ mergeOrder upd1 cre1 :=
                    (mem_mergeOrder _ _ _).mpr (Or.inr hrhc)
                  have hconsInst : ∀ r2 ∈ mergeOrder upd1 cre1,
                      r2.index_name = rh.index_name → r2.updated = rh.updated := by
                    intro r2 hr2 hid2
                    rw [hM1cons (rh :: rt) (Or.inr hbQ) rh (by simp) r2 hr2 hid2]
                  have hmem := applyList_ids_mem (mergeOrder upd1 cre1) db0
                    (idsOfRows db0.rows) (fun _ => rfl) rh hrhM hconsInst
                  rw [← hdb1] at hmem
                  rw [hmem]
                  simp
          rw [htrue] at hc2s
          dsimp only at hc2s
          simp only [Except.ok.injEq, Prod.mk.injEq] at hc2s
          exact hc2s.1.symm
  refine ⟨hcre2, ?_⟩
  rw [hupd2, hcre2] at hdb2
  exact hdb2

/-- Raw record constructor of the C2 counterexample catalog. -/
def ctrRaw (nm : String) (c u : Nat) : RawRecord :=
  ⟨some nm, some nm, none, none, none, none, none, none, some c, some u⟩

/-- Updated-descending listing of the C2 counterexample catalog:
ten new records A10..A01 (updated 210..201), then the stored record
X00 (updated 100), then ten new records R10..R01 (updated 10..1)
whose created timestamps are the newest of the catalog. -/
def ctrRawsU : List RawRecord := [
    ctrRaw "A10aaaaaaaaaaaaaaaaaaaaaaaaaaaaaaaaa" 20 210,
    ctrRaw "A09aaaaaaaaaaaaaaaaaaaaaaaaaaaaaaaaa" 19 209,
    ctrRaw "A08aaaaaaaaaaaaaaaaaaaaaaaaaaaaaaaaa" 18 208,
    ctrRaw "A07aaaaaaaaaaaaaaaaaaaaaaaaaaaaaaaaa" 17 207,
    ctrRaw "A06aaaaaaaaaaaaaaaaaaaaaaaaaaaaaaaaa" 16 206,
    ctrRaw "A05aaaaaaaaaaaaaaaaaaaaaaaaaaaaaaaaa" 15 205,
    ctrRaw "A04aaaaaaaaaaaaaaaaaaaaaaaaaaaaaaaaa" 14 204,
    ctrRaw "A03aaaaaaaaaaaaaaaaaaaaaaaaaaaaaaaaa" 13 203,
    ctrRaw "A02aaaaaaaaaaaaaaaaaaaaaaaaaaaaaaaaa" 12 202,
    ctrRaw "A01aaaaaaaaaaaaaaaaaaaaaaaaaaaaaaaaa" 11 201,
    ctrRaw "X00aaaaaaaaaaaaaaaaaaaaaaaaaaaaaaaaa" 1 100,
    ctrRaw "R10aaaaaaaaaaaaaaaaaaaaaaaaaaaaaaaaa" 110 10,
    ctrRaw "R09aaaaaaaaaaaaaaaaaaaaaaaaaaaaaaaaa" 109 9,
    ctrRaw "R08aaaaaaaaaaaaaaaaaaaaaaaaaaaaaaaaa" 108 8,
    ctrRaw "R07aaaaaaaaaaaaaaaaaaaaaaaaaaaaaaaaa" 107 7,
    ctrRaw "R06aaaaaaaaaaaaaaaaaaaaaaaaaaaaaaaaa" 106 6,
    ctrRaw "R05aaaaaaaaaaaaaaaaaaaaaaaaaaaaaaaaa" 105 5,
    ctrRaw "R04aaaaaaaaaaaaaaaaaaaaaaaaaaaaaaaaa" 104 4,
    ctrRaw "R03aaaaaaaaaaaaaaaaaaaaaaaaaaaaaaaaa" 103 3,
    ctrRaw "R02aaaaaaaaaaaaaaaaaaaaaaaaaaaaaaaaa" 102 2,
    ctrRaw "R01aaaaaaaaaaaaaaaaaaaaaaaaaaaaaaaaa" 101 1
  ]

/-- Created-descending listing of the same catalog: R10..R01
(created 110..101), then A10..A01 (created 20..11), then X00
(created 1). -/
def ctrRawsC : List RawRecord := [
    ctrRaw "R10aaaaaaaaaaaaaaaaaaaaaaaaaaaaaaaaa" 110 10,
    ctrRaw "R09aaaaaaaaaaaaaaaaaaaaaaaaaaaaaaaaa" 109 9,
    ctrRaw "R08aaaaaaaaaaaaaaaaaaaaaaaaaaaaaaaaa" 108 8,
    ctrRaw "R07aaaaaaaaaaaaaaaaaaaaaaaaaaaaaaaaa" 107 7,
    ctrRaw "R06aaaaaaaaaaaaaaaaaaaaaaaaaaaaaaaaa" 106 6,
    ctrRaw "R05aaaaaaaaaaaaaaaaaaaaaaaaaaaaaaaaa" 105 5,
    ctrRaw "R04aaaaaaaaaaaaaaaaaaaaaaaaaaaaaaaaa" 104 4,
    ctrRaw "R03aaaaaaaaaaaaaaaaaaaaaaaaaaaaaaaaa" 103 3,
    ctrRaw "R02aaaaaaaaaaaaaaaaaaaaaaaaaaaaaaaaa" 102 2,
    ctrRaw "R01aaaaaaaaaaaaaaaaaaaaaaaaaaaaaaaaa" 101 1,
    ctrRaw "A10aaaaaaaaaaaaaaaaaaaaaaaaaaaaaaaaa" 20 210,
    ctrRaw "A09aaaaaaaaaaaaaaaaaaaaaaaaaaaaaaaaa" 19 209,
    ctrRaw "A08aaaaaaaaaaaaaaaaaaaaaaaaaaaaaaaaa" 18 208,
    ctrRaw "A07aaaaaaaaaaaaaaaaaaaaaaaaaaaaaaaaa" 17 207,
    ctrRaw "A06aaaaaaaaaaaaaaaaaaaaaaaaaaaaaaaaa" 16 206,
    ctrRaw "A05aaaaaaaaaaaaaaaaaaaaaaaaaaaaaaaaa" 15 205,
    ctrRaw "A04aaaaaaaaaaaaaaaaaaaaaaaaaaaaaaaaa" 14 204,
    ctrRaw "A03aaaaaaaaaaaaaaaaaaaaaaaaaaaaaaaaa" 13 203,
    ctrRaw "A02aaaaaaaaaaaaaaaaaaaaaaaaaaaaaaaaa" 12 202,
    ctrRaw "A01aaaaaaaaaaaaaaaaaaaaaaaaaaaaaaaaa" 11 201,
    ctrRaw "X00aaaaaaaaaaaaaaaaaaaaaaaaaaaaaaaaa" 1 100
  ]

/-- Updated-stream pages of the C2 counterexample remote: plain
drop/take paging over the fixed updated-descending listing. -/
def ctrFetchU : Nat → Nat → FetchOutcome := fun o l =>
  .response (.records ((ctrRawsU.drop o).take l))

/-- Created-stream pages of the C2 counterexample remote: plain
drop/take paging over the fixed created-descending listing of the same
catalog. -/
def ctrFetchC : Nat → Nat → FetchOutcome := fun o l =>
  .response (.records ((ctrRawsC.drop o).take l))

/-- Stored row of the C2 counterexample: record X00, already current
(local updated equals the remote value 100). -/
def ctrXRow : ResourceMetadata :=
  ResourceMetadata.fromRaw "X00aaaaaaaaaaaaaaaaaaaaaaaaaaaaaaaaa"
    (ctrRaw "X00aaaaaaaaaaaaaaaaaaaaaaaaaaaaaaaaa" 1 100)

/-- Initial store of the C2 counterexample. -/
def ctrDb0 : DB := ⟨[ctrXRow], [ftsProj ctrXRow]⟩

/-- First incremental run of the C2 counterexample. -/
def ctrRun1 := incrementalSync ctrFetchU ctrFetchC 4 ctrDb0

/-- Store left by the first run. -/
def ctrDb1 : DB := match ctrRun1 with
  | .ok (d, _, _) => d
  | .error _ => ctrDb0

/-- Second incremental run of the C2 counterexample, against the
unchanged remote. -/
def ctrRun2 := incrementalSync ctrFetchU ctrFetchC 4 ctrDb1

/-- Store left by the second run. -/
def ctrDb2 : DB := match ctrRun2 with
  | .ok (d, _, _) => d
  | .error _ => ctrDb1

/-- Created delta discovered by the second run. -/
def ctrCre2 : List ResourceMetadata := match ctrRun2 with
  | .ok (_, _, c) => c
  | .error _ => []

/-- Boolean success test for an incremental run outcome. -/
def isOkB : Except SyncErr (DB × List ResourceMetadata × List ResourceMetadata) → Bool
  | .ok _ => true
  | .error _ => false

/-- A record of a page parsed by FetchedBatch.new from raw records that
all carry an index_name key is the normalization of one of them. -/
theorem new_records_mem (raws : List RawRecord) (P : List ResourceMetadata)
    (hall : ∀ rr ∈ raws, rr.index_name.isSome)
    (h : FetchedBatch.new (FetchOutcome.response (FetchBody.records raws))
      = Except.ok P) :
    ∀ r ∈ P, ∃ rr ∈ raws,
      r = ResourceMetadata.fromRaw (rr.index_name.getD "") rr := by
  have hnew : FetchedBatch.new (FetchOutcome.response (FetchBody.records raws))
      = (match from_raw_records raws with
        | .error _ => Except.ok []
        | .ok recs => Except.ok recs) := rfl
  rw [hnew, from_raw_records_all_present raws hall] at h
  dsimp only at h
  simp only [Except.ok.injEq] at h
  subst h
  intro r hr
  obtain ⟨rr, hrr, hre⟩ := List.mem_map.mp hr
  exact ⟨rr, List.mem_of_mem_filter hrr, hre.symm⟩

/-- The C2 counterexample remote is a fixed catalog: every fetched
record is determined by its identifier. -/
theorem ctr_consistent : RemoteConsistent ctrFetchU ctrFetchC := by
  have hallU : ∀ rr ∈ ctrRawsU, rr.index_name.isSome := by decide
  have hallC : ∀ rr ∈ ctrRawsC, rr.index_name.isSome := by decide
  have hkey : ∀ x ∈ (ctrRawsU ++ ctrRawsC).map
        (fun raw => ResourceMetadata.fromRaw (raw.index_name.getD "") raw),
      ∀ y ∈ (ctrRawsU ++ ctrRawsC).map
        (fun raw => ResourceMetadata.fromRaw (raw.index_name.getD "") raw),
      x.index_name = y.index_name → x = y := by decide
  have hmem : ∀ (o l : Nat) (P : List ResourceMetadata),
      (FetchedBatch.new (ctrFetchU o l) = Except.ok P ∨
       FetchedBatch.new (ctrFetchC o l) = Except.ok P) →
      ∀ r ∈ P, r ∈ (ctrRawsU ++ ctrRawsC).map
        (fun raw => ResourceMetadata.fromRaw (raw.index_name.getD "") raw) := by
    intro o l P hP r hr
    rcases hP with h | h
    · have hsub : ∀ rr ∈ (ctrRawsU.drop o).take l, rr.index_name.isSome :=
        fun rr hrr => hallU rr (List.drop_subset o ctrRawsU (List.take_subset l _ hrr))
      obtain ⟨rr, hrrsub, hre⟩ := new_records_mem _ P hsub h r hr
      rw [hre]
      exact List.mem_map_of_mem _ (List.mem_append_left _
        (List.drop_subset o ctrRawsU (List.take_subset l _ hrrsub)))
    · have hsub : ∀ rr ∈ (ctrRawsC.drop o).take l, rr.index_name.isSome :=
        fun rr hrr => hallC rr (List.drop_subset o ctrRawsC (List.take_subset l _ hrr))
      obtain ⟨rr, hrrsub, hre⟩ := new_records_mem _ P hsub h r hr
      rw [hre]
      exact List.mem_map_of_mem _ (List.mem_append_right _
        (List.drop_subset o ctrRawsC (List.take_subset l _ hrrsub)))
  intro o1 l1 o2 l2 P1 P2 r1 r2 hP1 hP2 hr1 hr2 hid
  exact hkey r1 (hmem o1 l1 P1 hP1 r1 hr1) r2 (hmem o2 l2 P2 hP2 r2 hr2) hid

/-- C2 counterexample: against a fixed, consistent remote catalog
(first conjunct), two successive incremental runs both return normally
(second and third conjuncts), yet the second run discovers a nonempty
created delta and leaves the row store different from the store the
first run left: the first run skipped the ten newest-created records
because its created scan inherited the offset advanced by its updated
scan, and the second run, whose created scan restarts at offset 0,
picks them up.  This refutes the claim that the second run leaves the
store identical with empty delta lists. -/
theorem claim_C2_counterexample :
    RemoteConsistent ctrFetchU ctrFetchC ∧
    isOkB ctrRun1 = true ∧
    isOkB ctrRun2 = true ∧
    ctrCre2 ≠ [] ∧
    ctrDb2 ≠ ctrDb1 :=
  ⟨ctr_consistent, by decide, by decide, by decide, by decide⟩

/-- Remote whose every page is well formed and empty. -/
def emptyFetch : Nat → Nat → FetchOutcome := fun _ _ => .response (.records [])

/-- The empty remote is trivially consistent. -/
theorem emptyFetch_consistent : RemoteConsistent emptyFetch emptyFetch := by
  intro o1 l1 o2 l2 P1 P2 r1 r2 hP1 hP2 hr1 _ _
  have hP : P1 = [] := by
    rcases hP1 with h | h <;>
      exact (Except.ok.inj h).symm
  rw [hP] at hr1
  simp at hr1

/-- Concrete instantiation of the C2 theorem on the empty remote: both
runs return normally and the conclusions hold. -/
theorem claim_C2_witness :
    ([] : List ResourceMetadata) = [] ∧
    (([] : List ResourceMetadata) = [] →
      ([] : List ResourceMetadata) = [] ∧ DB.empty = DB.empty) :=
  claim_C2 emptyFetch emptyFetch emptyFetch_consistent 1 1 DB.empty DB.empty DB.empty
    [] [] [] [] rfl rfl
